import Mathlib

/-!
Verification development for the ui-bug-detector crawl-and-scan engine.

The definitions below are shallow embeddings of the TypeScript source in
`src/lib/detector/` (the crawler, the `Detector` scan orchestrator, and the
URL utilities).  JavaScript numbers are modelled as exact rationals (the
quantities involved are small sums, products and divisions of decimal
constants, on which IEEE doubles and rationals agree for every statement
proved here); `Math.round` is modelled by `round` on `ℚ` (both round half
toward positive infinity); JS `Map` is modelled by an insertion-ordered
association list.  External collaborators (the browser, the network) are
modelled as explicit oracle parameters.
-/

/-- Severity levels of a finding, from `types.ts`. -/
inductive Severity where
  | critical
  | major
  | minor
  | optimization
deriving DecidableEq, Repr

/-- A finding (`Bug` in `types.ts`).  Only the fields that the crawl, dedup
and scoring logic reads are carried; the remaining fields of the source
interface (`details`, `expectedBehavior`, `friendlyName`, `suggestedFix`,
`boundingBox`, `priorityScore`, ...) are descriptive payload that none of the
modelled operations inspects. -/
structure Bug where
  id : String
  code : String
  severity : Severity
  message : String
  selector : Option String := none
  locationDescription : Option String := none
  pageUrl : Option String := none
deriving DecidableEq, Repr

/-- Lookup in an insertion-ordered association list, modelling `Map.get`. -/
def mapGet : List (String × ℚ) → String → Option ℚ
  | [], _ => none
  | (k, w) :: rest, c => if k = c then some w else mapGet rest c

/-- Update/insert in an insertion-ordered association list, modelling
`Map.set` (in-place update of an existing key, append otherwise). -/
def mapSet : List (String × ℚ) → String → ℚ → List (String × ℚ)
  | [], c, v => [(c, v)]
  | (k, w) :: rest, c, v => if k = c then (c, v) :: rest else (k, w) :: mapSet rest c v

/-- Base penalties by severity, from `Detector.calculateScore`. -/
def basePenalty : Severity → ℚ
  | .critical => 12
  | .major => 6
  | .minor => 2
  | .optimization => 1

/-- Per-code penalty ceilings by severity, from `Detector.calculateScore`. -/
def maxPenaltyPerType : Severity → ℚ
  | .critical => 30
  | .major => 20
  | .minor => 10
  | .optimization => 5

/-- Fold state of the `for (const bug of bugs)` loop in
`Detector.calculateScore`: the per-code running penalties, the grand total,
and (for specification purposes) the pre-cap `penalty` value computed for
each processed finding, in processing order (`0` when the capped branch was
skipped, as the finding then contributes nothing). -/
structure ScoreState where
  penaltyByCode : List (String × ℚ)
  total : ℚ
  trace : List ℚ
deriving Repr

/-- One iteration of the scoring loop of `Detector.calculateScore`. -/
def scoreStep (st : ScoreState) (bug : Bug) : ScoreState :=
  let currentCodePenalty := (mapGet st.penaltyByCode bug.code).getD 0
  let maxForType := maxPenaltyPerType bug.severity
  if currentCodePenalty < maxForType then
    let count : ℚ := if (mapGet st.penaltyByCode bug.code).isSome then 1 else 0
    let diminishingFactor : ℚ := 1 / (1 + count * (3 / 10))
    let penalty := basePenalty bug.severity * diminishingFactor
    let actualPenalty := min penalty (maxForType - currentCodePenalty)
    { penaltyByCode := mapSet st.penaltyByCode bug.code (currentCodePenalty + actualPenalty),
      total := st.total + actualPenalty,
      trace := st.trace ++ [penalty] }
  else
    { st with trace := st.trace ++ [0] }

/-- Initial state of the scoring loop. -/
def scoreInit : ScoreState := ⟨[], 0, []⟩

/-- The `totalPenalty` accumulated by the loop in `Detector.calculateScore`. -/
def totalPenalty (bugs : List Bug) : ℚ := (bugs.foldl scoreStep scoreInit).total

/-- The per-code penalty map after processing a list of findings. -/
def scoreMap (bugs : List Bug) : List (String × ℚ) := (bugs.foldl scoreStep scoreInit).penaltyByCode

/-- The pre-cap `penalty` computed for each finding, in processing order. -/
def penaltyTrace (bugs : List Bug) : List ℚ := (bugs.foldl scoreStep scoreInit).trace

/-- `Detector.calculateScore`: `100` for no findings, otherwise
`Math.max(0, Math.round(100 - Math.min(totalPenalty, 70)))`. -/
def calculateScore (bugs : List Bug) : ℤ :=
  if bugs = [] then 100 else max 0 (round ((100 : ℚ) - min (totalPenalty bugs) 70))

/-! Basic facts about the scoring fold. -/

theorem basePenalty_pos (s : Severity) : 0 < basePenalty s := by
  cases s <;> norm_num [basePenalty]

theorem maxPenaltyPerType_pos (s : Severity) : 0 < maxPenaltyPerType s := by
  cases s <;> norm_num [maxPenaltyPerType]

theorem scoreStep_total_mono (st : ScoreState) (b : Bug) : st.total ≤ (scoreStep st b).total := by
  unfold scoreStep
  by_cases h : (mapGet st.penaltyByCode b.code).getD 0 < maxPenaltyPerType b.severity
  · simp only [h, if_true]
    have hfac : (0 : ℚ) <
        1 / (1 + (if (mapGet st.penaltyByCode b.code).isSome then (1 : ℚ) else 0) * (3 / 10)) := by
      by_cases hs : (mapGet st.penaltyByCode b.code).isSome
      · simp only [hs, if_true]
        norm_num
      · simp only [hs, if_false]
        norm_num
    have hpen : (0 : ℚ) ≤ basePenalty b.severity *
        (1 / (1 + (if (mapGet st.penaltyByCode b.code).isSome then (1 : ℚ) else 0) * (3 / 10))) :=
      le_of_lt (mul_pos (basePenalty_pos _) hfac)
    have hroom : (0 : ℚ) ≤ maxPenaltyPerType b.severity - (mapGet st.penaltyByCode b.code).getD 0 :=
      by linarith
    have : (0 : ℚ) ≤ min (basePenalty b.severity *
        (1 / (1 + (if (mapGet st.penaltyByCode b.code).isSome then (1 : ℚ) else 0) * (3 / 10))))
        (maxPenaltyPerType b.severity - (mapGet st.penaltyByCode b.code).getD 0) :=
      le_min hpen hroom
    linarith
  · simp [h]

theorem foldl_scoreStep_total_mono (bugs : List Bug) (st : ScoreState) :
    st.total ≤ (bugs.foldl scoreStep st).total := by
  induction bugs generalizing st with
  | nil => simp
  | cons b rest ih => exact le_trans (scoreStep_total_mono st b) (ih (scoreStep st b))

theorem totalPenalty_nonneg (bugs : List Bug) : 0 ≤ totalPenalty bugs := by
  simpa [totalPenalty, scoreInit] using foldl_scoreStep_total_mono bugs scoreInit

theorem totalPenalty_append_one (L : List Bug) (b : Bug) :
    totalPenalty L ≤ totalPenalty (L ++ [b]) := by
  unfold totalPenalty
  rw [List.foldl_append]
  simpa using scoreStep_total_mono (L.foldl scoreStep scoreInit) b

theorem round_hundred : round ((100 : ℚ)) = 100 := by
  have : ((100 : ℚ)) = ((100 : ℤ) : ℚ) := by norm_num
  rw [this, round_intCast]

theorem round_thirty : round ((30 : ℚ)) = 30 := by
  have : ((30 : ℚ)) = ((30 : ℤ) : ℚ) := by norm_num
  rw [this, round_intCast]

theorem round_mono_rat {x y : ℚ} (h : x ≤ y) : round x ≤ round y := by
  rw [round_eq, round_eq]
  exact Int.floor_le_floor (by linarith)

/-- Claim C3: for every finding list the score returned by
`Detector.calculateScore` lies in `[0, 100]`, and appending one more finding
never raises the score. -/
theorem calculateScore_range_and_monotone (L : List Bug) (b : Bug) :
    0 ≤ calculateScore L ∧ calculateScore L ≤ 100 ∧
      calculateScore (L ++ [b]) ≤ calculateScore L := by
  have upper : ∀ M : List Bug, calculateScore M ≤ 100 := by
    intro M
    unfold calculateScore
    by_cases hM : M = []
    · simp [hM]
    · simp only [hM, if_false]
      have h1 : (0 : ℚ) ≤ min (totalPenalty M) 70 :=
        le_min (totalPenalty_nonneg M) (by norm_num)
      have h2 : (100 : ℚ) - min (totalPenalty M) 70 ≤ 100 := by linarith
      have h3 : round ((100 : ℚ) - min (totalPenalty M) 70) ≤ 100 := by
        calc round ((100 : ℚ) - min (totalPenalty M) 70) ≤ round ((100 : ℚ)) :=
              round_mono_rat h2
          _ = 100 := round_hundred
      exact max_le (by norm_num) h3
  have lower : ∀ M : List Bug, 0 ≤ calculateScore M := by
    intro M
    unfold calculateScore
    by_cases hM : M = []
    · simp [hM]
    · simp [hM]
  refine ⟨lower L, upper L, ?_⟩
  by_cases hL : L = []
  · subst hL
    simpa [calculateScore] using upper [b]
  · have hLb : L ++ [b] ≠ [] := by simp
    unfold calculateScore
    simp only [hL, hLb, if_false]
    have hmin : min (totalPenalty L) 70 ≤ min (totalPenalty (L ++ [b])) 70 :=
      min_le_min (totalPenalty_append_one L b) le_rfl
    exact max_le_max le_rfl (round_mono_rat (by linarith))

/-- Claim C10: the global penalty cap of 70 keeps every non-empty finding
list's score at or above 30, and the `max(0, ...)` clamp in
`Detector.calculateScore` is never the binding bound. -/
theorem calculateScore_min_thirty (bugs : List Bug) (h : bugs ≠ []) :
    30 ≤ calculateScore bugs ∧
      calculateScore bugs = round ((100 : ℚ) - min (totalPenalty bugs) 70) := by
  have h1 : min (totalPenalty bugs) 70 ≤ (70 : ℚ) := min_le_right _ _
  have h2 : (30 : ℚ) ≤ (100 : ℚ) - min (totalPenalty bugs) 70 := by linarith
  have h3 : (30 : ℤ) ≤ round ((100 : ℚ) - min (totalPenalty bugs) 70) := by
    calc (30 : ℤ) = round ((30 : ℚ)) := round_thirty.symm
      _ ≤ round ((100 : ℚ) - min (totalPenalty bugs) 70) := round_mono_rat h2
  constructor
  · unfold calculateScore
    simp only [h, if_false]
    exact le_trans h3 (le_max_right _ _)
  · unfold calculateScore
    simp only [h, if_false]
    exact max_eq_right (le_trans (by norm_num) h3)

/-- A concrete critical finding used in witnesses. -/
def bugCritical1 : Bug :=
  { id := "1", code := "NAV_SERVER_ERROR", severity := .critical,
    message := "Server error behind link" }

/-- Witness for claim C10 at a concrete one-element finding list. -/
theorem calculateScore_min_thirty_witness :
    ([bugCritical1] ≠ ([] : List Bug)) ∧ 30 ≤ calculateScore [bugCritical1] :=
  ⟨by simp, (calculateScore_min_thirty [bugCritical1] (by simp)).1⟩

/-! Lemmas about the per-code penalty map. -/

theorem mapGet_mapSet_self (m : List (String × ℚ)) (c : String) (v : ℚ) :
    mapGet (mapSet m c v) c = some v := by
  induction m with
  | nil => simp [mapSet, mapGet]
  | cons p rest ih =>
    obtain ⟨k, w⟩ := p
    by_cases hk : k = c
    · simp [mapSet, mapGet, hk]
    · simp [mapSet, mapGet, hk, ih]

theorem mapGet_mapSet_ne (m : List (String × ℚ)) (c c' : String) (v : ℚ) (h : c' ≠ c) :
    mapGet (mapSet m c v) c' = mapGet m c' := by
  have h' : ¬c = c' := fun hh => h hh.symm
  induction m with
  | nil => simp [mapSet, mapGet, h']
  | cons p rest ih =>
    obtain ⟨k, w⟩ := p
    by_cases hk : k = c
    · subst hk
      simp [mapSet, mapGet, h']
    · by_cases hk' : k = c'
      · subst hk'
        simp [mapSet, mapGet, hk]
      · simp [mapSet, mapGet, hk, hk', ih]

theorem scoreStep_isSome_self (st : ScoreState) (b : Bug) :
    (mapGet (scoreStep st b).penaltyByCode b.code).isSome := by
  unfold scoreStep
  by_cases h : (mapGet st.penaltyByCode b.code).getD 0 < maxPenaltyPerType b.severity
  · simp only [h, if_true]
    simp [mapGet_mapSet_self]
  · simp only [h, if_false]
    cases hg : mapGet st.penaltyByCode b.code with
    | none =>
      exfalso
      apply h
      rw [hg]
      simpa using maxPenaltyPerType_pos b.severity
    | some q => simp

theorem scoreStep_isSome_mono (st : ScoreState) (b : Bug) (c : String)
    (h : (mapGet st.penaltyByCode c).isSome) :
    (mapGet (scoreStep st b).penaltyByCode c).isSome := by
  unfold scoreStep
  by_cases hb : (mapGet st.penaltyByCode b.code).getD 0 < maxPenaltyPerType b.severity
  · simp only [hb, if_true]
    by_cases hc : c = b.code
    · subst hc
      simp [mapGet_mapSet_self]
    · simpa [mapGet_mapSet_ne _ _ _ _ hc] using h
  · simpa [hb] using h

theorem foldl_scoreStep_isSome (L : List Bug) (st : ScoreState) (c : String)
    (h : (mapGet st.penaltyByCode c).isSome) :
    (mapGet (L.foldl scoreStep st).penaltyByCode c).isSome := by
  induction L generalizing st with
  | nil => simpa using h
  | cons a rest ih => exact ih (scoreStep st a) (scoreStep_isSome_mono st a c h)

theorem code_seen_isSome (L : List Bug) (st : ScoreState) (c : String)
    (h : c ∈ L.map Bug.code) :
    (mapGet (L.foldl scoreStep st).penaltyByCode c).isSome := by
  induction L generalizing st with
  | nil => simp at h
  | cons a rest ih =>
    rw [List.map_cons, List.mem_cons] at h
    rcases h with hc | hc
    · subst hc
      exact foldl_scoreStep_isSome rest (scoreStep st a) _ (scoreStep_isSome_self st a)
    · exact ih (scoreStep st a) hc

/-- A concrete major finding used in the claim C2 counterexample. -/
def bugMajorX : Bug :=
  { id := "2", code := "VISUAL_OVERLAP", severity := .major, message := "overlap" }

/-- Counterexample to claim C2: after three findings of the same major code,
the third finding's pre-cap contribution is `6 / 1.3 = 60/13` (the binary
`count` in the source is `1` for every repeat), not the claimed
`6 * 1 / (1 + (3 - 1) * 0.3) = 6/1.6`. -/
theorem claim2_growing_discount_counterexample :
    (penaltyTrace [bugMajorX, bugMajorX, bugMajorX]).get? 2 = some (60 / 13) ∧
      (60 / 13 : ℚ) ≠ basePenalty .major * (1 / (1 + ((3 : ℚ) - 1) * (3 / 10))) := by
  constructor
  · norm_num [penaltyTrace, scoreInit, scoreStep, mapGet, mapSet, basePenalty,
      maxPenaltyPerType, bugMajorX]
  · norm_num [basePenalty]

/-- Claim C2 amended: in `Detector.calculateScore`, every finding of a code
that has already been processed contributes, before the per-code ceiling is
applied, its base penalty times the constant factor `1 / (1 + 0.3) = 10/13`
(zero when the per-code ceiling is already reached) — the discount does not
grow with the number of prior findings of the code. -/
theorem scoreStep_trace_repeat (st : ScoreState) (b : Bug)
    (hsome : (mapGet st.penaltyByCode b.code).isSome) :
    (scoreStep st b).trace = st.trace ++
      [if (mapGet st.penaltyByCode b.code).getD 0 < maxPenaltyPerType b.severity
        then basePenalty b.severity * (10 / 13) else 0] := by
  unfold scoreStep
  by_cases hc : (mapGet st.penaltyByCode b.code).getD 0 < maxPenaltyPerType b.severity
  · simp only [hc, if_true, hsome]
    norm_num
  · simp [hc]

theorem penaltyTrace_repeat_constant_discount (L : List Bug) (b : Bug)
    (h : b.code ∈ L.map Bug.code) :
    penaltyTrace (L ++ [b]) = penaltyTrace L ++
      [if (mapGet (scoreMap L) b.code).getD 0 < maxPenaltyPerType b.severity
        then basePenalty b.severity * (10 / 13) else 0] := by
  have hsome : (mapGet (scoreMap L) b.code).isSome :=
    code_seen_isSome L scoreInit b.code h
  unfold penaltyTrace scoreMap at *
  rw [List.foldl_append, List.foldl_cons, List.foldl_nil]
  exact scoreStep_trace_repeat (L.foldl scoreStep scoreInit) b hsome

/-- Witness for the amended claim C2 at a concrete two-element list. -/
theorem penaltyTrace_repeat_constant_discount_witness :
    (bugMajorX.code ∈ [bugMajorX].map Bug.code) ∧
      penaltyTrace [bugMajorX, bugMajorX] = penaltyTrace [bugMajorX] ++
        [if (mapGet (scoreMap [bugMajorX]) bugMajorX.code).getD 0 <
            maxPenaltyPerType bugMajorX.severity
          then basePenalty bugMajorX.severity * (10 / 13) else 0] :=
  ⟨by simp, by
    have := penaltyTrace_repeat_constant_discount [bugMajorX] bugMajorX (by simp)
    simpa using this⟩

/-! Deduplication (`Detector.deduplicateBugs`) and viewport tagging
(`Detector.limitAndTagBugs`). -/

/-- One left-to-right pass removing every occurrence of the literal
`[Desktop]` or `[Mobile]`, modelling
`message.replace(/\[Desktop\]|\[Mobile\]/g, '')`.  The regex alternation is
scanned once, leftmost-first, exactly as this recursion does; no other
viewport label is stripped. -/
def stripViewportTags : List Char → List Char
  | '[' :: 'D' :: 'e' :: 's' :: 'k' :: 't' :: 'o' :: 'p' :: ']' :: rest => stripViewportTags rest
  | '[' :: 'M' :: 'o' :: 'b' :: 'i' :: 'l' :: 'e' :: ']' :: rest => stripViewportTags rest
  | c :: rest => c :: stripViewportTags rest
  | [] => []

/-- JS `String.prototype.trim`: drop whitespace from both ends. -/
def trimChars (l : List Char) : List Char :=
  ((l.dropWhile Char.isWhitespace).reverse.dropWhile Char.isWhitespace).reverse

/-- `bug.message.replace(/\[Desktop\]|\[Mobile\]/g, '').trim().slice(0, 50)`. -/
def messageCore (s : String) : String :=
  ((trimChars (stripViewportTags s.data)).take 50).asString

/-- The deduplication key of `Detector.deduplicateBugs`:
`code + '|' + messageCore + '|' + (selector || '')`. -/
def dedupKey (b : Bug) : String :=
  b.code ++ "|" ++ messageCore b.message ++ "|" ++ b.selector.getD ""

/-- First-occurrence-per-key filter, modelling the insertion-ordered `Map`
of `Detector.deduplicateBugs` (`Array.from(seen.values())` returns the first
bug stored for each key, in first-insertion order). -/
def dedupGo : List String → List Bug → List Bug
  | _, [] => []
  | seenKeys, b :: rest =>
    if dedupKey b ∈ seenKeys then dedupGo seenKeys rest
    else b :: dedupGo (seenKeys ++ [dedupKey b]) rest

/-- `Detector.deduplicateBugs`. -/
def deduplicateBugs (bugs : List Bug) : List Bug := dedupGo [] bugs

/-- `Detector.limitAndTagBugs`: truncate to `limit` findings and prefix the
viewport label into message and location description.  (The `friendlyName`
assignment of the source writes a field that no modelled operation reads.) -/
def limitAndTagBugs (bugs : List Bug) (viewport : String) (pageUrl : String)
    (limit : Nat) : List Bug :=
  (bugs.take limit).map fun b =>
    { b with
      message := "[" ++ viewport ++ "] " ++ b.message,
      locationDescription := some (match b.locationDescription with
        | some ld => if ld = "" then "Viewport: " ++ viewport
            else ld ++ " (" ++ viewport ++ ")"
        | none => "Viewport: " ++ viewport),
      pageUrl := some pageUrl }

theorem stripViewportTags_desktop (rest : List Char) :
    stripViewportTags ('[' :: 'D' :: 'e' :: 's' :: 'k' :: 't' :: 'o' :: 'p' :: ']' :: rest) =
      stripViewportTags rest := rfl

theorem stripViewportTags_mobile (rest : List Char) :
    stripViewportTags ('[' :: 'M' :: 'o' :: 'b' :: 'i' :: 'l' :: 'e' :: ']' :: rest) =
      stripViewportTags rest := rfl

theorem messageCore_tagged (m t : String) (h : t = "Desktop" ∨ t = "Mobile") :
    messageCore ("[" ++ t ++ "] " ++ m) = messageCore (" " ++ m) := by
  rcases h with h | h <;> subst h
  · unfold messageCore
    have hd : ("[" ++ "Desktop" ++ "] " ++ m).data =
        '[' :: 'D' :: 'e' :: 's' :: 'k' :: 't' :: 'o' :: 'p' :: ']' :: ' ' :: m.data := by
      simp [String.data_append]
    have hs : (" " ++ m).data = ' ' :: m.data := by
      simp [String.data_append]
    rw [hd, hs, stripViewportTags_desktop]
  · unfold messageCore
    have hd : ("[" ++ "Mobile" ++ "] " ++ m).data =
        '[' :: 'M' :: 'o' :: 'b' :: 'i' :: 'l' :: 'e' :: ']' :: ' ' :: m.data := by
      simp [String.data_append]
    have hs : (" " ++ m).data = ' ' :: m.data := by
      simp [String.data_append]
    rw [hd, hs, stripViewportTags_mobile]

/-- Two concrete findings that differ only in a `[Tablet]` vs `[Desktop]`
viewport tag. -/
def bugDeskPair : Bug :=
  { id := "5", code := "LAYOUT_OVERFLOW", severity := .major,
    message := "[Desktop] Content wider than viewport",
    selector := some "div.hero" }

/-- Same finding tagged by the Tablet viewport. -/
def bugTabPair : Bug :=
  { bugDeskPair with id := "6", message := "[Tablet] Content wider than viewport" }

/-- Counterexample to claim C6: `deduplicateBugs` strips only `[Desktop]`
and `[Mobile]` from messages, so a pair differing only in a `[Tablet]` tag
is NOT collapsed to the first element: both findings survive. -/
theorem claim6_tablet_counterexample :
    deduplicateBugs [bugDeskPair, bugTabPair] = [bugDeskPair, bugTabPair] ∧
      bugDeskPair.code = bugTabPair.code ∧ bugDeskPair.selector = bugTabPair.selector ∧
      bugDeskPair.message = "[Desktop] Content wider than viewport" ∧
      bugTabPair.message = "[Tablet] Content wider than viewport" := by
  refine ⟨?_, rfl, rfl, rfl, rfl⟩
  decide

/-- Claim C6 amended: the deduplication key is
(code, message with `[Desktop]`/`[Mobile]` tags stripped, trimmed and
truncated to 50 characters, selector-or-empty); consequently a pair of
findings that differ only in a `[Desktop]` vs `[Mobile]` viewport tag
prefixed into their messages is collapsed to its first element — but a
`[Tablet]` (or any other label's) tag is not stripped. -/
theorem deduplicateBugs_desktop_mobile_collapse (b : Bug) (m t1 t2 : String)
    (h1 : t1 = "Desktop" ∨ t1 = "Mobile") (h2 : t2 = "Desktop" ∨ t2 = "Mobile") :
    deduplicateBugs [{ b with message := "[" ++ t1 ++ "] " ++ m },
                     { b with message := "[" ++ t2 ++ "] " ++ m }] =
      [{ b with message := "[" ++ t1 ++ "] " ++ m }] := by
  have hkey : dedupKey { b with message := "[" ++ t2 ++ "] " ++ m } =
      dedupKey { b with message := "[" ++ t1 ++ "] " ++ m } := by
    unfold dedupKey
    simp only
    rw [messageCore_tagged m t1 h1, messageCore_tagged m t2 h2]
  unfold deduplicateBugs dedupGo
  simp only [List.not_mem_nil, if_false]
  rw [dedupGo]
  simp [hkey]
  rfl

/-- Witness for the amended claim C6 at concrete inputs. -/
theorem deduplicateBugs_desktop_mobile_collapse_witness :
    deduplicateBugs [{ bugCritical1 with message := "[" ++ "Desktop" ++ "] " ++ "Broken link" },
                     { bugCritical1 with message := "[" ++ "Mobile" ++ "] " ++ "Broken link" }] =
      [{ bugCritical1 with message := "[" ++ "Desktop" ++ "] " ++ "Broken link" }] :=
  deduplicateBugs_desktop_mobile_collapse bugCritical1 "Broken link" "Desktop" "Mobile"
    (Or.inl rfl) (Or.inr rfl)

/-! Sitemap resolution (`parseSitemap` in `url-utils.ts`). -/

/-- Is `sub` a prefix of some suffix of the list? -/
def containsSubChars (sub : List Char) : List Char → Bool
  | [] => sub.isPrefixOf []
  | c :: rest => sub.isPrefixOf (c :: rest) || containsSubChars sub rest

/-- JS `String.prototype.includes`. -/
def containsSubstring (s sub : String) : Bool := containsSubChars sub.data s.data

/-- Does the list start with a (case-insensitive) literal of the five
characters of an opening `loc` tag? -/
def isOpenLoc : List Char → Bool
  | a :: b :: c :: d :: e :: _ =>
    a == '<' && b.toLower == 'l' && c.toLower == 'o' && d.toLower == 'c' && e == '>'
  | _ => false

/-- Does the list start with a (case-insensitive) literal of the six
characters of a closing `loc` tag? -/
def isCloseLoc : List Char → Bool
  | a :: b :: c :: d :: e :: f :: _ =>
    a == '<' && b == '/' && c.toLower == 'l' && d.toLower == 'o' && e.toLower == 'c' && f == '>'
  | _ => false

/-- The shortest capture up to the next closing `loc` tag, together with the
remainder after that tag; `none` when no closing tag follows (the regex then
has no further match). -/
def findLocCapture : List Char → Option (List Char × List Char)
  | [] => none
  | c :: rest =>
    if isCloseLoc (c :: rest) then some ([], (c :: rest).drop 6)
    else match findLocCapture rest with
      | some (cap, rem) => some (c :: cap, rem)
      | none => none

/-- Fueled single scan collecting every `<loc>...</loc>` capture (trimmed),
modelling the global regex scan `/<loc>\s*(.*?)\s*<\/loc>/gi` of
`parseSitemap`.  Every step consumes at least one character, so fuel equal
to the input length always suffices. -/
def extractLocsGo : Nat → List Char → List (List Char)
  | 0, _ => []
  | _ + 1, [] => []
  | fuel + 1, c :: rest =>
    if isOpenLoc (c :: rest) then
      match findLocCapture ((c :: rest).drop 5) with
      | some (cap, rem) => trimChars cap :: extractLocsGo fuel rem
      | none => []
    else extractLocsGo fuel rest

/-- All `<loc>` entries of a sitemap document. -/
def extractLocs (l : List Char) : List (List Char) := extractLocsGo l.length l

/-- Fueled unfolding of the recursive `parseSitemap` of `url-utils.ts`.
`fetch` models the network (`none` = failed or not-ok response, which the
source turns into `[]`).  A result of `none` means the recursion has not
finished within `fuel` nested unfoldings of `parseSitemap`; the source
bounds the per-level fan-out (`.slice(0, 5)`) but carries no depth bound and
no visited set, which this fuel parameter makes observable. -/
def parseSitemapFuel (fetch : String → Option String) : Nat → String → Option (List String)
  | 0, _ => none
  | fuel + 1, sitemapUrl =>
    match fetch sitemapUrl with
    | none => some []
    | some text =>
      if containsSubstring text "<sitemapindex" then
        let nestedSitemaps := (extractLocs text.data).map List.asString
        (nestedSitemaps.take 5).foldl
          (fun acc nestedUrl =>
            match acc, parseSitemapFuel fetch fuel nestedUrl with
            | some urls, some nestedUrls => some (urls ++ nestedUrls)
            | _, _ => none)
          (some [])
      else
        some (((extractLocs text.data).map List.asString).filter
          (fun u => !(containsSubstring u "/image:") && !(containsSubstring u "/video:")))

/-- The URL of a self-referencing sitemap index. -/
def cyclicSitemapUrl : String := "https://example.com/sitemap.xml"

/-- A sitemap index document whose only nested sitemap location is the
document's own URL. -/
def cyclicSitemapText : String :=
  "<sitemapindex><loc>https://example.com/sitemap.xml</loc></sitemapindex>"

/-- A network in which every fetch returns the self-referencing index. -/
def cyclicFetch : String → Option String := fun _ => some cyclicSitemapText

/-- Claim C7 divergence: on a self-referencing sitemap index, `parseSitemap`
never terminates — no finite number of unfoldings of the recursion produces
a result, because the `.slice(0, 5)` bound limits breadth only, not depth,
and no visited set breaks the cycle. -/
theorem parseSitemap_cyclic_nonterminating (fuel : Nat) :
    parseSitemapFuel cyclicFetch fuel cyclicSitemapUrl = none := by
  induction fuel with
  | zero => rfl
  | succ n ih =>
    rw [parseSitemapFuel]
    simp only [cyclicFetch]
    rw [if_pos (by decide)]
    rw [show ((extractLocs cyclicSitemapText.data).map List.asString).take 5 =
        [cyclicSitemapUrl] by decide]
    simp only [List.foldl_cons, List.foldl_nil]
    rw [ih]

/-! URL model.  `new URL` is a platform API (WHATWG); the model below covers
absolute `http(s)` URLs `scheme://host[:port][/path][?query][#fragment]` and
root-relative references resolved against such a base — the forms the
crawler's URL utilities feed it.  Percent-encoding, dot-segment removal and
internationalized hosts are outside the modelled input domain.  As in the
WHATWG parser, the host is lower-cased and a default port is removed while
parsing, making the corresponding steps of `normalizeUrl` no-ops. -/

/-- A parsed URL: the components of the WHATWG `URL` object that the source
reads or writes.  `port`, `search` and `hash` are `none` when absent
(`search` keeps the query without its `?`, `hash` the fragment without its
`#`). -/
structure URLRecord where
  https : Bool
  hostname : List Char
  port : Option (List Char)
  pathname : List Char
  search : Option (List Char)
  hash : Option (List Char)
deriving DecidableEq, Repr

/-- Characters ending the host component. -/
def isHostEnd (c : Char) : Bool := c == ':' || c == '/' || c == '?' || c == '#'

/-- Characters ending the port component. -/
def isPortEnd (c : Char) : Bool := c == '/' || c == '?' || c == '#'

/-- Characters ending the path component. -/
def isPathEnd (c : Char) : Bool := c == '?' || c == '#'

/-- The scheme-default port digits. -/
def defaultPortChars (https : Bool) : List Char :=
  if https then "443".data else "80".data

/-- The characters of the literal `https://`. -/
def httpsPrefixChars : List Char := ['h', 't', 't', 'p', 's', ':', '/', '/']

/-- The characters of the literal `http://`. -/
def httpPrefixChars : List Char := ['h', 't', 't', 'p', ':', '/', '/']

/-- Recognize and remove the scheme prefix. -/
def schemeSplit (l : List Char) : Option (Bool × List Char) :=
  if httpsPrefixChars.isPrefixOf l then some (true, l.drop 8)
  else if httpPrefixChars.isPrefixOf l then some (false, l.drop 7)
  else none

/-- Parse query and fragment from the remainder `r3` after the path, with
all earlier components already in hand. -/
def parseSearchHash (https : Bool) (hostname : List Char) (port : Option (List Char))
    (path : List Char) : List Char → Option URLRecord
  | [] => some ⟨https, hostname, port, path, none, none⟩
  | c :: r4 =>
    if c = '?' then
      match r4.dropWhile (fun c => !(c == '#')) with
      | [] => some ⟨https, hostname, port, path,
          some (r4.takeWhile (fun c => !(c == '#'))), none⟩
      | e :: r6 =>
        if e = '#' then
          some ⟨https, hostname, port, path,
            some (r4.takeWhile (fun c => !(c == '#'))), some r6⟩
        else none
    else if c = '#' then some ⟨https, hostname, port, path, none, some r4⟩
    else none

/-- Parse path, query and fragment (the remainder after host and port): a
remainder starting with `/` carries an explicit path, otherwise the path is
the root path `/` (as the WHATWG serializer produces for special schemes). -/
def parsePathOnward (https : Bool) (hostname : List Char) (port : Option (List Char)) :
    List Char → Option URLRecord
  | [] => parseSearchHash https hostname port ['/'] []
  | c :: r =>
    if c = '/' then
      parseSearchHash https hostname port
        ((c :: r).takeWhile (fun c => !(isPathEnd c)))
        ((c :: r).dropWhile (fun c => !(isPathEnd c)))
    else parseSearchHash https hostname port ['/'] (c :: r)

/-- Parse an optional `:port` then the rest; a non-numeric port is a parse
failure (`new URL` throws), and an empty or scheme-default port is dropped,
as the WHATWG parser does. -/
def parseAfterHost (https : Bool) (hostname : List Char) : List Char → Option URLRecord
  | [] => parsePathOnward https hostname none []
  | c :: r1 =>
    if c = ':' then
      if (r1.takeWhile (fun c => !(isPortEnd c))).all Char.isDigit then
        parsePathOnward https hostname
          (if r1.takeWhile (fun c => !(isPortEnd c)) = [] ∨
              r1.takeWhile (fun c => !(isPortEnd c)) = defaultPortChars https
           then none
           else some (r1.takeWhile (fun c => !(isPortEnd c))))
          (r1.dropWhile (fun c => !(isPortEnd c)))
      else none
    else parsePathOnward https hostname none (c :: r1)

/-- Host extraction after the scheme: the (lower-cased) host runs to the
first delimiter and must be non-empty. -/
def parseFromHost (https : Bool) (r0 : List Char) : Option URLRecord :=
  let host := (r0.takeWhile (fun c => !(isHostEnd c))).map Char.toLower
  let r1 := r0.dropWhile (fun c => !(isHostEnd c))
  if host = [] then none else parseAfterHost https host r1

/-- Parse an absolute `http(s)` URL. -/
def parseUrlChars (l : List Char) : Option URLRecord :=
  match schemeSplit l with
  | none => none
  | some (https, r0) => parseFromHost https r0

/-- `URL.origin`: scheme, `//`, host, and the port when present. -/
def originChars (p : URLRecord) : List Char :=
  (if p.https then httpsPrefixChars else httpPrefixChars) ++ p.hostname ++
    (match p.port with | none => [] | some pd => ':' :: pd)

/-- `URL.href` for a parsed record. -/
def hrefChars (p : URLRecord) : List Char :=
  originChars p ++ p.pathname ++
    (match p.search with | none => [] | some q => '?' :: q) ++
    (match p.hash with | none => [] | some f => '#' :: f)

/-- Code-unit comparison of two character lists, as the default JS array
sort comparator compares strings. -/
def leChars : List Char → List Char → Bool
  | [], _ => true
  | _ :: _, [] => false
  | a :: as, b :: bs => if a < b then true else if b < a then false else leChars as bs

/-- Split one `k=v` query segment at its first `=`. -/
def paramPair (seg : List Char) : List Char × List Char :=
  (seg.takeWhile (fun c => !(c == '=')),
   match seg.dropWhile (fun c => !(c == '=')) with
   | '=' :: v => v
   | _ => [])

/-- `URLSearchParams(q).entries()`: split on `&`, skip empty segments. -/
def parseParams (q : List Char) : List (List Char × List Char) :=
  ((q.splitOn '&').filter (fun seg => !seg.isEmpty)).map paramPair

/-- The default JS sort comparator on `[key, value]` entry arrays: it
stringifies each entry as `key,value` and compares code units. -/
def leKV (a b : List Char × List Char) : Bool :=
  leChars (a.1 ++ ',' :: a.2) (b.1 ++ ',' :: b.2)

/-- `URLSearchParams.toString` on a list of entries. -/
def serializeParams (ps : List (List Char × List Char)) : List Char :=
  List.intercalate ['&'] (ps.map (fun p => p.1 ++ '=' :: p.2))

/-- Stable insertion into a sorted list: an element is placed before the
first element it compares less-or-equal to. -/
def insertLe (le : List Char × List Char → List Char × List Char → Bool)
    (a : List Char × List Char) : List (List Char × List Char) → List (List Char × List Char)
  | [] => [a]
  | b :: bs => if le a b then a :: b :: bs else b :: insertLe le a bs

/-- Stable insertion sort.  JS `Array.prototype.sort` is stable and `leKV`
is total, so this produces exactly the array JS produces. -/
def stableSortKV (le : List Char × List Char → List Char × List Char → Bool) :
    List (List Char × List Char) → List (List Char × List Char)
  | [] => []
  | a :: as => insertLe le a (stableSortKV le as)

/-- `new URLSearchParams([...params.entries()].sort()).toString()` from
`normalizeUrl`. -/
def sortQueryChars (q : List Char) : List Char :=
  serializeParams (stableSortKV leKV (parseParams q))

/-- The body of `normalizeUrl` after a successful parse: lower-case the
host (vacuous after WHATWG parsing, as is the default-port removal), drop
the fragment, sort a non-empty query (removing it when it serializes to
nothing), then strip one trailing `/` from the `href` unless the path is the
root path. -/
def normalizeRecordChars (p0 : URLRecord) : List Char :=
  let p1 := { p0 with hostname := p0.hostname.map Char.toLower }
  let p2 := { p1 with hash := none }
  let p3 := match p2.search with
    | some q =>
      if q.isEmpty then p2
      else
        let qs := sortQueryChars q
        { p2 with search := if qs.isEmpty then none else some qs }
    | none => p2
  let normalized := hrefChars p3
  if p3.pathname ≠ ['/'] ∧ normalized.getLast? = some '/' then normalized.dropLast
  else normalized

/-- `new URL(url, base?)` for the modelled reference forms: an absolute URL,
or a root-relative reference against a parsable base. -/
def resolveUrl (url : String) (base : Option String) : Option URLRecord :=
  match parseUrlChars url.data with
  | some p => some p
  | none =>
    match base with
    | none => none
    | some b =>
      match parseUrlChars b.data with
      | none => none
      | some pb =>
        match url.data with
        | '/' :: _ => parseUrlChars (originChars pb ++ url.data)
        | _ => none

/-- `normalizeUrl` of `url-utils.ts`: `null` (here `none`) on unparsable
input, otherwise the canonicalized URL string. -/
def normalizeUrl (url : String) (baseOrigin : Option String) : Option String :=
  match resolveUrl url baseOrigin with
  | none => none
  | some p => some (normalizeRecordChars p).asString

/-- `isSameOrigin` of `url-utils.ts`: strict origin equality, `false` when
either side fails to parse. -/
def isSameOrigin (url baseOrigin : String) : Bool :=
  match resolveUrl url (some baseOrigin), parseUrlChars baseOrigin.data with
  | some pu, some pb => originChars pu == originChars pb
  | _, _ => false

/-- `CrawlOptions` of `url-utils.ts`.  The `RegExp` path patterns are
modelled as abstract predicates on the (lower-cased) path characters; the
optional pattern fields are `none` when absent, covering the
`Partial<CrawlOptions>` call sites. -/
structure CrawlOptions where
  maxDepth : Nat
  maxPages : Nat
  respectRobotsTxt : Bool
  includeSitemap : Bool
  allowedPathPatterns : Option (List (List Char → Bool)) := none
  excludedPathPatterns : Option (List (List Char → Bool)) := none
  requestDelayMs : Nat
  concurrency : Nat

/-- `DEFAULT_CRAWL_OPTIONS` of `url-utils.ts`. -/
def DEFAULT_CRAWL_OPTIONS : CrawlOptions :=
  { maxDepth := 3, maxPages := 50, respectRobotsTxt := true, includeSitemap := true,
    requestDelayMs := 500, concurrency := 2 }

/-- The non-page resource extensions skipped by `shouldCrawl`. -/
def skipExtensions : List String :=
  [".jpg", ".jpeg", ".png", ".gif", ".webp", ".svg", ".ico",
   ".pdf", ".zip", ".tar", ".gz",
   ".css", ".js", ".json", ".xml",
   ".mp3", ".mp4", ".wav", ".avi", ".mov",
   ".woff", ".woff2", ".ttf", ".eot",
   ".map"]

/-- The non-content path fragments skipped by `shouldCrawl`. -/
def skipPaths : List String := ["/api/", "/_next/", "/static/", "/assets/", "/cdn-cgi/"]

/-- `shouldCrawl` of `url-utils.ts`. -/
def shouldCrawl (url : String) (baseOrigin : String) (options : CrawlOptions) : Bool :=
  if !(isSameOrigin url baseOrigin) then false
  else
    match resolveUrl url (some baseOrigin) with
    | none => false
    | some parsed =>
      let pathname := parsed.pathname.map Char.toLower
      if skipExtensions.any (fun ext => ext.data.isSuffixOf pathname) then false
      else if skipPaths.any (fun pth => containsSubChars pth.data pathname) then false
      else if (match options.excludedPathPatterns with
          | some pats => pats.any (fun pat => pat pathname)
          | none => false) then false
      else if (match options.allowedPathPatterns with
          | some pats => !pats.isEmpty && !(pats.any (fun pat => pat pathname))
          | none => false) then false
      else true

/-- Claim C5: `shouldCrawl` returns `false` for every URL whose path ends in
`.png`, `.css`, `.js` or `.pdf` (case-insensitively), and for every URL
whose origin differs from the base origin, regardless of the configured
allowed/excluded path patterns. -/
theorem shouldCrawl_rejects_resources_and_cross_origin
    (url baseOrigin : String) (options : CrawlOptions) :
    ((∃ p, resolveUrl url (some baseOrigin) = some p ∧
        [".png", ".css", ".js", ".pdf"].any
          (fun ext => ext.data.isSuffixOf (p.pathname.map Char.toLower)) = true) ∨
      (∃ pu pb, resolveUrl url (some baseOrigin) = some pu ∧
        parseUrlChars baseOrigin.data = some pb ∧ originChars pu ≠ originChars pb)) →
    shouldCrawl url baseOrigin options = false := by
  intro h
  rcases h with ⟨p, hp, hext⟩ | ⟨pu, pb, hpu, hpb, hne⟩
  · cases hso : isSameOrigin url baseOrigin with
    | false => simp [shouldCrawl, hso]
    | true =>
      have hany : skipExtensions.any
          (fun ext => ext.data.isSuffixOf (p.pathname.map Char.toLower)) = true := by
        rcases List.any_eq_true.mp hext with ⟨x, hx, hpred⟩
        refine List.any_eq_true.mpr ⟨x, ?_, hpred⟩
        simp only [List.mem_cons, List.mem_singleton] at hx
        rcases hx with rfl | rfl | rfl | rfl | hx
        · decide
        · decide
        · decide
        · decide
        · simp at hx
      simp only [shouldCrawl, hso, Bool.not_true, Bool.false_eq_true, if_false, hp]
      simp [hany]
  · have hsame : isSameOrigin url baseOrigin = false := by
      unfold isSameOrigin
      rw [hpu, hpb]
      simp only [beq_eq_false_iff_ne, ne_eq]
      exact hne
    simp [shouldCrawl, hsame]

/-- Options with a match-everything allow pattern and an (empty) exclude
pattern list, exercising the "regardless of policy settings" half of C5. -/
def allowAllOptions : CrawlOptions :=
  { DEFAULT_CRAWL_OPTIONS with
    allowedPathPatterns := some [fun _ => true],
    excludedPathPatterns := some [] }

/-- Witness for claim C5 at a concrete resource URL and concrete options. -/
theorem shouldCrawl_rejects_witness :
    shouldCrawl "https://a.com/img.PNG" "https://a.com" allowAllOptions = false :=
  shouldCrawl_rejects_resources_and_cross_origin "https://a.com/img.PNG" "https://a.com"
    allowAllOptions
    (Or.inl ⟨⟨true, "a.com".data, none, "/img.PNG".data, none, none⟩, by decide, by decide⟩)

/-- Counterexample to claim C8: `normalizeUrl` strips only one trailing
slash, so it is not idempotent on a path ending in a double slash —
normalizing `https://a.com/foo//` gives `https://a.com/foo/`, and
normalizing that again gives the different string `https://a.com/foo`. -/
theorem claim8_idempotence_counterexample :
    normalizeUrl "https://a.com/foo//" none = some "https://a.com/foo/" ∧
      normalizeUrl "https://a.com/foo/" none = some "https://a.com/foo" ∧
      ("https://a.com/foo" : String) ≠ "https://a.com/foo/" :=
  ⟨by decide, by decide, by decide⟩

/-- Counterexample to claim C9: with a query string present the `href` ends
in the query, not in `/`, so the trailing slash of the path survives
`normalizeUrl`: `https://a.com/foo/?b=1` normalizes to itself, with path
`/foo/` ≠ `/` still ending in a slash. -/
theorem claim9_trailing_slash_counterexample :
    normalizeUrl "https://a.com/foo/?b=1" none = some "https://a.com/foo/?b=1" ∧
      parseUrlChars "https://a.com/foo/?b=1".data =
        some ⟨true, "a.com".data, none, "/foo/".data, some "b=1".data, none⟩ ∧
      "/foo/".data.getLast? = some '/' ∧ "/foo/".data ≠ "/".data :=
  ⟨by decide, by decide, by decide, by decide⟩

/-! Facts about `Char.toLower` and the component-delimiter predicates,
needed for the normalization round-trip. -/

theorem char_toNat_ofNat_of_le (n : Nat) (h2 : n ≤ 122) : (Char.ofNat n).toNat = n := by
  have hv : n.isValidChar := Or.inl (by omega)
  unfold Char.ofNat
  rw [dif_pos hv]
  unfold Char.ofNatAux
  simp [Char.toNat, UInt32.toNat]

theorem toLower_cases (c : Char) :
    Char.toLower c = c ∨ (97 ≤ (Char.toLower c).toNat ∧ (Char.toLower c).toNat ≤ 122) := by
  unfold Char.toLower
  by_cases h : c.toNat ≥ 65 ∧ c.toNat ≤ 90
  · right
    simp only [h, and_self, if_true]
    rw [char_toNat_ofNat_of_le (c.toNat + 32) (by omega)]
    omega
  · left
    simp only [h, if_false]

theorem toLower_toLower (c : Char) :
    Char.toLower (Char.toLower c) = Char.toLower c := by
  rcases toLower_cases c with h | h
  · rw [h]
    exact h
  · set d := Char.toLower c with hd
    have hne : ¬(d.toNat ≥ 65 ∧ d.toNat ≤ 90) := by omega
    unfold Char.toLower
    simp only [hne, if_false]

theorem map_toLower_involution (l : List Char) :
    (l.map Char.toLower).map Char.toLower = l.map Char.toLower := by
  rw [List.map_map]
  exact List.map_congr_left fun c _ => toLower_toLower c

theorem toLower_ne_small (c d : Char) (h2 : 97 ≤ (Char.toLower c).toNat)
    (hd : d.toNat < 97) : Char.toLower c ≠ d := by
  intro he
  rw [he] at h2
  omega

theorem isHostEnd_toLower (c : Char) (h : isHostEnd c = false) :
    isHostEnd (Char.toLower c) = false := by
  rcases toLower_cases c with h2 | h2
  · rw [h2]
    exact h
  · have hA : (Char.toLower c == ':') = false :=
      beq_eq_false_iff_ne.mpr (toLower_ne_small c ':' h2.1 (by decide))
    have hB : (Char.toLower c == '/') = false :=
      beq_eq_false_iff_ne.mpr (toLower_ne_small c '/' h2.1 (by decide))
    have hC : (Char.toLower c == '?') = false :=
      beq_eq_false_iff_ne.mpr (toLower_ne_small c '?' h2.1 (by decide))
    have hD : (Char.toLower c == '#') = false :=
      beq_eq_false_iff_ne.mpr (toLower_ne_small c '#' h2.1 (by decide))
    simp [isHostEnd, hA, hB, hC, hD]

theorem isDigit_not_isPortEnd (c : Char) (h : c.isDigit = true) : isPortEnd c = false := by
  by_cases h1 : c = '/'
  · subst h1
    exact absurd h (by decide)
  · by_cases h2 : c = '?'
    · subst h2
      exact absurd h (by decide)
    · by_cases h3 : c = '#'
      · subst h3
        exact absurd h (by decide)
      · simp [isPortEnd, h1, h2, h3]

/-! List scanning helpers. -/

theorem takeWhile_all_eq (p : Char → Bool) (l : List Char) (hl : ∀ c ∈ l, p c = true) :
    l.takeWhile p = l := by
  induction l with
  | nil => rfl
  | cons c cs ih =>
    rw [List.takeWhile_cons, hl c (by simp)]
    simp [ih fun d hd => hl d (by simp [hd])]

theorem dropWhile_all_eq (p : Char → Bool) (l : List Char) (hl : ∀ c ∈ l, p c = true) :
    l.dropWhile p = [] := by
  induction l with
  | nil => rfl
  | cons c cs ih =>
    rw [List.dropWhile_cons]
    simp only [hl c (by simp), if_true]
    exact ih fun d hd => hl d (by simp [hd])

theorem takeWhile_append_left (p : Char → Bool) (a b : List Char)
    (ha : ∀ c ∈ a, p c = true) (hb : ∀ x, b.head? = some x → p x = false) :
    (a ++ b).takeWhile p = a := by
  induction a with
  | nil =>
    simp only [List.nil_append]
    cases b with
    | nil => rfl
    | cons x bs => simp [List.takeWhile_cons, hb x rfl]
  | cons c cs ih =>
    have hc := ha c (by simp)
    simp only [List.cons_append, List.takeWhile_cons, hc, if_true]
    simp [ih fun d hd => ha d (by simp [hd])]

theorem dropWhile_append_right (p : Char → Bool) (a b : List Char)
    (ha : ∀ c ∈ a, p c = true) (hb : ∀ x, b.head? = some x → p x = false) :
    (a ++ b).dropWhile p = b := by
  induction a with
  | nil =>
    simp only [List.nil_append]
    cases b with
    | nil => rfl
    | cons x bs => simp [List.dropWhile_cons, hb x rfl]
  | cons c cs ih =>
    have hc := ha c (by simp)
    simp only [List.cons_append, List.dropWhile_cons, hc, if_true]
    exact ih fun d hd => ha d (by simp [hd])

/-! Well-formedness of parsed URL records and the serialization round-trip. -/

/-- Invariants holding of every record produced by `parseUrlChars`:
component strings contain no delimiter of a later component, the host is
non-empty and already lower-case, and a present port is a non-empty,
non-default digit string. -/
structure URLWf (p : URLRecord) : Prop where
  host_ne : p.hostname ≠ []
  host_ok : ∀ c ∈ p.hostname, isHostEnd c = false
  host_lower : p.hostname.map Char.toLower = p.hostname
  port_ne : ∀ pd, p.port = some pd → pd ≠ []
  port_digits : ∀ pd, p.port = some pd → pd.all Char.isDigit = true
  port_nondefault : ∀ pd, p.port = some pd → pd ≠ defaultPortChars p.https
  path_head : p.pathname.head? = some '/'
  path_ok : ∀ c ∈ p.pathname, isPathEnd c = false
  search_ok : ∀ q, p.search = some q → ∀ c ∈ q, (c == '#') = false

theorem URLWf.path_ne {p : URLRecord} (w : URLWf p) : p.pathname ≠ [] := by
  intro h
  have hw := w.path_head
  rw [h] at hw
  simp at hw

theorem URLWf.path_cons {p : URLRecord} (w : URLWf p) : ∃ t, p.pathname = '/' :: t := by
  cases hp : p.pathname with
  | nil => exact absurd (hp ▸ w.path_head) (by simp)
  | cons c t =>
    have hw := w.path_head
    rw [hp] at hw
    simp only [List.head?_cons, Option.some.injEq] at hw
    subst hw
    exact ⟨t, rfl⟩

/-- The serialized port part of an `href`. -/
def portPartChars : Option (List Char) → List Char
  | none => []
  | some pd => ':' :: pd

/-- The serialized query part of an `href`. -/
def searchPartChars : Option (List Char) → List Char
  | none => []
  | some q => '?' :: q

/-- The serialized fragment part of an `href`. -/
def hashPartChars : Option (List Char) → List Char
  | none => []
  | some f => '#' :: f

theorem hrefChars_eq (p : URLRecord) :
    hrefChars p = (if p.https then httpsPrefixChars else httpPrefixChars) ++
      (p.hostname ++ (portPartChars p.port ++ (p.pathname ++
        (searchPartChars p.search ++ hashPartChars p.hash)))) := by
  unfold hrefChars originChars portPartChars searchPartChars hashPartChars
  cases p.port <;> cases p.search <;> cases p.hash <;> simp [List.append_assoc]

theorem isPrefixOf_self_append (a b : List Char) : a.isPrefixOf (a ++ b) = true :=
  List.isPrefixOf_iff_prefix.mpr (List.prefix_append a b)

theorem schemeSplit_https (rest : List Char) :
    schemeSplit (httpsPrefixChars ++ rest) = some (true, rest) := by
  unfold schemeSplit
  rw [if_pos (isPrefixOf_self_append httpsPrefixChars rest)]
  rw [List.drop_left' (by rfl)]

theorem schemeSplit_http (rest : List Char) :
    schemeSplit (httpPrefixChars ++ rest) = some (false, rest) := by
  unfold schemeSplit
  rw [if_neg ?hneg]
  case hneg =>
    simp [httpsPrefixChars, httpPrefixChars, List.isPrefixOf]
  rw [if_pos (isPrefixOf_self_append httpPrefixChars rest)]
  rw [List.drop_left' (by rfl)]

theorem parseSearchHash_roundtrip (hts : Bool) (host : List Char) (port : Option (List Char))
    (path : List Char) (srch : Option (List Char))
    (hsok : ∀ q, srch = some q → ∀ c ∈ q, (c == '#') = false) :
    parseSearchHash hts host port path (searchPartChars srch) =
      some ⟨hts, host, port, path, srch, none⟩ := by
  cases srch with
  | none => rfl
  | some q =>
    have hq' : ∀ c ∈ q, (fun c => !(c == '#')) c = true := fun c hc => by
      simp [hsok q rfl c hc]
    simp only [searchPartChars, parseSearchHash, if_true]
    rw [takeWhile_all_eq _ q hq', dropWhile_all_eq _ q hq']

theorem parsePathOnward_roundtrip (hts : Bool) (host : List Char) (port : Option (List Char))
    (t : List Char) (srch : Option (List Char))
    (hpok : ∀ c ∈ ('/' :: t), isPathEnd c = false)
    (hsok : ∀ q, srch = some q → ∀ c ∈ q, (c == '#') = false) :
    parsePathOnward hts host port (('/' :: t) ++ searchPartChars srch) =
      some ⟨hts, host, port, '/' :: t, srch, none⟩ := by
  have hb : ∀ x, (searchPartChars srch).head? = some x → (!(isPathEnd x)) = false := by
    intro x hx
    cases srch with
    | none => simp [searchPartChars] at hx
    | some q =>
      simp only [searchPartChars, List.head?_cons, Option.some.injEq] at hx
      subst hx
      rfl
  have hall : ∀ c ∈ ('/' :: t), (fun c => !(isPathEnd c)) c = true := fun c hc => by
    simp [hpok c hc]
  have htake := takeWhile_append_left (fun c => !(isPathEnd c)) ('/' :: t)
    (searchPartChars srch) hall hb
  have hdrop := dropWhile_append_right (fun c => !(isPathEnd c)) ('/' :: t)
    (searchPartChars srch) hall hb
  rw [List.cons_append] at htake hdrop ⊢
  simp only [parsePathOnward, if_true]
  rw [htake, hdrop]
  exact parseSearchHash_roundtrip hts host port ('/' :: t) srch hsok

theorem parseAfterHost_roundtrip (hts : Bool) (host : List Char) (port : Option (List Char))
    (t : List Char) (srch : Option (List Char))
    (hpne : ∀ pd, port = some pd → pd ≠ [])
    (hpdig : ∀ pd, port = some pd → pd.all Char.isDigit = true)
    (hpdef : ∀ pd, port = some pd → pd ≠ defaultPortChars hts)
    (hpok : ∀ c ∈ ('/' :: t), isPathEnd c = false)
    (hsok : ∀ q, srch = some q → ∀ c ∈ q, (c == '#') = false) :
    parseAfterHost hts host (portPartChars port ++ (('/' :: t) ++ searchPartChars srch)) =
      some ⟨hts, host, port, '/' :: t, srch, none⟩ := by
  cases port with
  | none =>
    simp only [portPartChars, List.nil_append, List.cons_append]
    simp only [parseAfterHost]
    rw [if_neg (by decide : ¬('/' : Char) = ':')]
    rw [← List.cons_append]
    exact parsePathOnward_roundtrip hts host none t srch hpok hsok
  | some pd =>
    have hdig := hpdig pd rfl
    have hall : ∀ c ∈ pd, (fun c => !(isPortEnd c)) c = true := by
      intro c hc
      simp [isDigit_not_isPortEnd c (List.all_eq_true.mp hdig c hc)]
    have hb : ∀ x, (('/' :: t) ++ searchPartChars srch).head? = some x →
        (!(isPortEnd x)) = false := by
      intro x hx
      rw [List.cons_append, List.head?_cons] at hx
      cases hx
      rfl
    have htake := takeWhile_append_left (fun c => !(isPortEnd c)) pd
      (('/' :: t) ++ searchPartChars srch) hall hb
    have hdrop := dropWhile_append_right (fun c => !(isPortEnd c)) pd
      (('/' :: t) ++ searchPartChars srch) hall hb
    simp only [portPartChars, List.cons_append]
    simp only [parseAfterHost, if_true]
    rw [List.cons_append] at htake hdrop
    rw [htake, hdrop]
    rw [if_pos hdig]
    rw [if_neg (by
      push_neg
      exact ⟨hpne pd rfl, hpdef pd rfl⟩)]
    rw [← List.cons_append]
    exact parsePathOnward_roundtrip hts host (some pd) t srch hpok hsok

theorem parseUrlChars_hrefChars (p : URLRecord) (w : URLWf p) (hh : p.hash = none) :
    parseUrlChars (hrefChars p) = some p := by
  obtain ⟨t, hpath⟩ := w.path_cons
  obtain ⟨hts, host, port, path, srch, hsh⟩ := p
  simp only at hh hpath
  subst hh
  subst hpath
  have whost_ne : host ≠ [] := w.host_ne
  have whost_ok : ∀ c ∈ host, isHostEnd c = false := w.host_ok
  have whost_lower : host.map Char.toLower = host := w.host_lower
  rw [hrefChars_eq]
  simp only [hashPartChars, List.append_nil]
  have hahost : ∀ c ∈ host, (fun c => !(isHostEnd c)) c = true := fun c hc => by
    simp [whost_ok c hc]
  have hbt : ∀ x, (portPartChars port ++ (('/' :: t) ++ searchPartChars srch)).head? = some x →
      (!(isHostEnd x)) = false := by
    intro x hx
    cases port with
    | none =>
      simp only [portPartChars, List.nil_append, List.cons_append, List.head?_cons,
        Option.some.injEq] at hx
      subst hx
      rfl
    | some pd =>
      simp only [portPartChars, List.cons_append, List.head?_cons, Option.some.injEq] at hx
      subst hx
      rfl
  have hstep : parseFromHost hts (host ++ (portPartChars port ++ (('/' :: t) ++
      searchPartChars srch))) = some ⟨hts, host, port, '/' :: t, srch, none⟩ := by
    unfold parseFromHost
    rw [takeWhile_append_left _ _ _ hahost hbt, dropWhile_append_right _ _ _ hahost hbt]
    rw [whost_lower]
    rw [if_neg whost_ne]
    exact parseAfterHost_roundtrip hts host port t srch w.port_ne w.port_digits
      w.port_nondefault w.path_ok w.search_ok
  cases hts with
  | true =>
    simp only [if_true]
    unfold parseUrlChars
    rw [schemeSplit_https]
    exact hstep
  | false =>
    simp only [Bool.false_eq_true, if_false]
    unfold parseUrlChars
    rw [schemeSplit_http]
    exact hstep

theorem parseSearchHash_inv (hts : Bool) (host : List Char) (port : Option (List Char))
    (path r3 : List Char) (p : URLRecord)
    (h : parseSearchHash hts host port path r3 = some p) :
    p.https = hts ∧ p.hostname = host ∧ p.port = port ∧ p.pathname = path ∧
      (∀ q, p.search = some q → ∀ c ∈ q, (c == '#') = false) := by
  cases r3 with
  | nil =>
    simp only [parseSearchHash, Option.some.injEq] at h
    subst h
    exact ⟨rfl, rfl, rfl, rfl, fun q hq => by simp at hq⟩
  | cons c r4 =>
    simp only [parseSearchHash] at h
    by_cases hc : c = '?'
    · rw [if_pos hc] at h
      rcases hd : List.dropWhile (fun c => !(c == '#')) r4 with _ | ⟨e, r6⟩
      · rw [hd] at h
        simp only [Option.some.injEq] at h
        subst h
        refine ⟨rfl, rfl, rfl, rfl, ?_⟩
        intro q hq
        simp only [Option.some.injEq] at hq
        subst hq
        intro x hx
        simpa using List.mem_takeWhile_imp hx
      · rw [hd] at h
        by_cases he : e = '#'
        · subst he
          simp only [eq_self_iff_true, if_true, Option.some.injEq] at h
          subst h
          refine ⟨rfl, rfl, rfl, rfl, ?_⟩
          intro q hq
          simp only [Option.some.injEq] at hq
          subst hq
          intro x hx
          simpa using List.mem_takeWhile_imp hx
        · simp only [he, if_false] at h
          cases h
    · rw [if_neg hc] at h
      by_cases hc2 : c = '#'
      · rw [if_pos hc2] at h
        simp only [Option.some.injEq] at h
        subst h
        exact ⟨rfl, rfl, rfl, rfl, fun q hq => by simp at hq⟩
      · rw [if_neg hc2] at h
        cases h

theorem parsePathOnward_inv (hts : Bool) (host : List Char) (port : Option (List Char))
    (rest : List Char) (p : URLRecord)
    (h : parsePathOnward hts host port rest = some p) :
    p.https = hts ∧ p.hostname = host ∧ p.port = port ∧
      p.pathname.head? = some '/' ∧ (∀ c ∈ p.pathname, isPathEnd c = false) ∧
      (∀ q, p.search = some q → ∀ c ∈ q, (c == '#') = false) := by
  cases rest with
  | nil =>
    simp only [parsePathOnward] at h
    obtain ⟨h1, h2, h3, h4, h6⟩ := parseSearchHash_inv _ _ _ _ _ _ h
    refine ⟨h1, h2, h3, by rw [h4]; rfl, ?_, h6⟩
    rw [h4]
    intro x hx
    simp only [List.mem_singleton] at hx
    subst hx
    rfl
  | cons c r =>
    simp only [parsePathOnward] at h
    by_cases hc : c = '/'
    · rw [if_pos hc] at h
      obtain ⟨h1, h2, h3, h4, h6⟩ := parseSearchHash_inv _ _ _ _ _ _ h
      subst hc
      refine ⟨h1, h2, h3, ?_, ?_, h6⟩
      · rw [h4, List.takeWhile_cons]
        simp [isPathEnd]
      · rw [h4]
        intro x hx
        simpa using List.mem_takeWhile_imp hx
    · rw [if_neg hc] at h
      obtain ⟨h1, h2, h3, h4, h6⟩ := parseSearchHash_inv _ _ _ _ _ _ h
      refine ⟨h1, h2, h3, by rw [h4]; rfl, ?_, h6⟩
      rw [h4]
      intro x hx
      simp only [List.mem_singleton] at hx
      subst hx
      rfl

theorem parseAfterHost_inv (hts : Bool) (host rest : List Char) (p : URLRecord)
    (h : parseAfterHost hts host rest = some p) :
    p.https = hts ∧ p.hostname = host ∧
      (∀ pd, p.port = some pd → pd ≠ []) ∧
      (∀ pd, p.port = some pd → pd.all Char.isDigit = true) ∧
      (∀ pd, p.port = some pd → pd ≠ defaultPortChars hts) ∧
      p.pathname.head? = some '/' ∧ (∀ c ∈ p.pathname, isPathEnd c = false) ∧
      (∀ q, p.search = some q → ∀ c ∈ q, (c == '#') = false) := by
  cases rest with
  | nil =>
    simp only [parseAfterHost] at h
    obtain ⟨h1, h2, h3, h4, h5, h6⟩ := parsePathOnward_inv _ _ _ _ _ h
    refine ⟨h1, h2, ?_, ?_, ?_, h4, h5, h6⟩ <;>
      · intro pd hpd
        rw [h3] at hpd
        cases hpd
  | cons c r1 =>
    simp only [parseAfterHost] at h
    by_cases hc : c = ':'
    · rw [if_pos hc] at h
      by_cases hdig : (r1.takeWhile (fun c => !(isPortEnd c))).all Char.isDigit = true
      · rw [if_pos hdig] at h
        obtain ⟨h1, h2, h3, h4, h5, h6⟩ := parsePathOnward_inv _ _ _ _ _ h
        by_cases hdef : r1.takeWhile (fun c => !(isPortEnd c)) = [] ∨
            r1.takeWhile (fun c => !(isPortEnd c)) = defaultPortChars hts
        · rw [if_pos hdef] at h3
          refine ⟨h1, h2, ?_, ?_, ?_, h4, h5, h6⟩ <;>
            · intro pd hpd
              rw [h3] at hpd
              cases hpd
        · rw [if_neg hdef] at h3
          push_neg at hdef
          refine ⟨h1, h2, ?_, ?_, ?_, h4, h5, h6⟩
          · intro pd hpd
            rw [h3] at hpd
            injection hpd with hpd
            subst hpd
            exact hdef.1
          · intro pd hpd
            rw [h3] at hpd
            injection hpd with hpd
            subst hpd
            exact hdig
          · intro pd hpd
            rw [h3] at hpd
            injection hpd with hpd
            subst hpd
            exact hdef.2
      · rw [if_neg hdig] at h
        cases h
    · rw [if_neg hc] at h
      obtain ⟨h1, h2, h3, h4, h5, h6⟩ := parsePathOnward_inv _ _ _ _ _ h
      refine ⟨h1, h2, ?_, ?_, ?_, h4, h5, h6⟩ <;>
        · intro pd hpd
          rw [h3] at hpd
          cases hpd

theorem parseUrlChars_wf (l : List Char) (p : URLRecord)
    (h : parseUrlChars l = some p) : URLWf p := by
  unfold parseUrlChars at h
  rcases hs : schemeSplit l with _ | ⟨hts, r0⟩
  · rw [hs] at h
    cases h
  · rw [hs] at h
    change parseFromHost hts r0 = some p at h
    unfold parseFromHost at h
    by_cases hhost : (r0.takeWhile (fun c => !(isHostEnd c))).map Char.toLower = []
    · rw [if_pos hhost] at h
      cases h
    · rw [if_neg hhost] at h
      obtain ⟨h1, h2, h3, h4, h5, h6, h7, h8⟩ := parseAfterHost_inv _ _ _ _ h
      refine ⟨?_, ?_, ?_, h3, h4, ?_, h6, h7, h8⟩
      · rw [h2]
        exact hhost
      · rw [h2]
        intro c hc
        rcases List.mem_map.mp hc with ⟨c', hc', rfl⟩
        exact isHostEnd_toLower c'
          (by simpa using List.mem_takeWhile_imp hc')
      · rw [h2]
        exact map_toLower_involution _
      · rw [h1]
        exact h5

theorem originChars_eq (p : URLRecord) :
    originChars p = (if p.https then httpsPrefixChars else httpPrefixChars) ++
      (p.hostname ++ portPartChars p.port) := by
  unfold originChars portPartChars
  cases p.port <;> simp [List.append_assoc]

theorem normalizeRecordChars_no_query (p : URLRecord) (w : URLWf p) (hq : p.search = none) :
    normalizeRecordChars p =
      if p.pathname ≠ ['/'] ∧ p.pathname.getLast? = some '/'
      then originChars p ++ p.pathname.dropLast
      else originChars p ++ p.pathname := by
  have hlow : p.hostname.map Char.toLower = p.hostname := w.host_lower
  have hpne : p.pathname ≠ [] := w.path_ne
  obtain ⟨hts, host, port, path, srch, hsh⟩ := p
  simp only at hq hlow hpne
  subst hq
  simp only [normalizeRecordChars, hlow]
  rw [hrefChars_eq, originChars_eq]
  simp only [searchPartChars, hashPartChars, List.append_nil, List.append_assoc]
  have hx3 : portPartChars port ++ path ≠ [] :=
    List.append_ne_nil_of_right_ne_nil _ hpne
  have hx2 : host ++ (portPartChars port ++ path) ≠ [] :=
    List.append_ne_nil_of_right_ne_nil _ hx3
  have hglast : ((if hts then httpsPrefixChars else httpPrefixChars) ++
      (host ++ (portPartChars port ++ path))).getLast? = path.getLast? := by
    rw [List.getLast?_append_of_ne_nil _ hx2, List.getLast?_append_of_ne_nil _ hx3,
      List.getLast?_append_of_ne_nil _ hpne]
  rw [hglast]
  by_cases hcond : path ≠ ['/'] ∧ path.getLast? = some '/'
  · rw [if_pos hcond, if_pos hcond]
    rw [List.dropLast_append_of_ne_nil _ hx2, List.dropLast_append_of_ne_nil _ hx3,
      List.dropLast_append_of_ne_nil _ hpne]
  · rw [if_neg hcond, if_neg hcond]

theorem data_asString (l : List Char) : l.asString.data = l := List.toList_asString l

/-- A canonical record whose serialized normal form re-normalizes to
itself: this is the second pass of `normalizeUrl` on its own output. -/
theorem normalizeUrl_fixed_point (hts : Bool) (host : List Char) (port : Option (List Char))
    (path2 : List Char) (w2 : URLWf ⟨hts, host, port, path2, none, none⟩)
    (hnostrip : ¬(path2 ≠ ['/'] ∧ path2.getLast? = some '/')) :
    normalizeUrl ((originChars ⟨hts, host, port, path2, none, none⟩ ++ path2).asString) none =
      some ((originChars ⟨hts, host, port, path2, none, none⟩ ++ path2).asString) := by
  have hhref : hrefChars ⟨hts, host, port, path2, none, none⟩ =
      originChars ⟨hts, host, port, path2, none, none⟩ ++ path2 := by
    simp [hrefChars]
  have hparse : parseUrlChars (originChars ⟨hts, host, port, path2, none, none⟩ ++ path2) =
      some ⟨hts, host, port, path2, none, none⟩ := by
    rw [← hhref]
    exact parseUrlChars_hrefChars _ w2 rfl
  have h1 : resolveUrl ((originChars ⟨hts, host, port, path2, none, none⟩ ++ path2).asString)
      none = some ⟨hts, host, port, path2, none, none⟩ := by
    simp only [resolveUrl, data_asString, hparse]
  have hN2 : normalizeRecordChars ⟨hts, host, port, path2, none, none⟩ =
      originChars ⟨hts, host, port, path2, none, none⟩ ++ path2 := by
    rw [normalizeRecordChars_no_query _ w2 rfl]
    rw [if_neg hnostrip]
  simp only [normalizeUrl, h1, hN2]

/-- Claim C8 amended: `normalizeUrl` is idempotent on every (query-free)
URL whose path does not end in two consecutive slashes; a path ending in
`//` loses one slash per application, so idempotence fails there. -/
theorem normalizeUrl_idempotent_no_double_slash (u : String) (p : URLRecord)
    (hp : parseUrlChars u.data = some p) (hq : p.search = none)
    (hds : ¬ ['/', '/'] <:+ p.pathname) :
    ∃ s, normalizeUrl u none = some s ∧ normalizeUrl s none = some s := by
  have w := parseUrlChars_wf _ _ hp
  have hN := normalizeRecordChars_no_query p w hq
  have h1 : resolveUrl u none = some p := by simp only [resolveUrl, hp]
  have hres : normalizeUrl u none = some ((normalizeRecordChars p).asString) := by
    simp only [normalizeUrl, h1]
  refine ⟨(normalizeRecordChars p).asString, hres, ?_⟩
  obtain ⟨t, hpathcons⟩ := w.path_cons
  obtain ⟨hts, host, port, path, srch, hsh⟩ := p
  simp only at hq hds hpathcons hN
  subst hq
  by_cases hcond : path ≠ ['/'] ∧ path.getLast? = some '/'
  · -- one trailing slash is stripped; the result has none left
    rw [if_pos hcond] at hN
    have hdecomp : path.dropLast ++ ['/'] = path :=
      List.dropLast_append_getLast? '/' (by rw [hcond.2]; rfl)
    have hq_ne : path.dropLast ≠ [] := by
      intro hnil
      apply hcond.1
      rw [← hdecomp, hnil, List.nil_append]
    have hq_last : path.dropLast.getLast? ≠ some '/' := by
      intro hlast
      apply hds
      have hdecomp2 : path.dropLast.dropLast ++ ['/'] = path.dropLast :=
        List.dropLast_append_getLast? '/' (by rw [hlast]; rfl)
      refine ⟨path.dropLast.dropLast, ?_⟩
      rw [show (['/', '/'] : List Char) = ['/'] ++ ['/'] from rfl, ← List.append_assoc,
        hdecomp2, hdecomp]
    have ht_ne : t ≠ [] := by
      intro h0
      exact hcond.1 (by rw [hpathcons, h0])
    have hhead2 : path.dropLast.head? = some '/' := by
      rw [hpathcons, List.dropLast_cons_of_ne_nil ht_ne]
      rfl
    have hok2 : ∀ c ∈ path.dropLast, isPathEnd c = false := fun c hc =>
      w.path_ok c ((List.dropLast_sublist path).subset hc)
    have w2 : URLWf ⟨hts, host, port, path.dropLast, none, none⟩ :=
      { host_ne := w.host_ne, host_ok := w.host_ok, host_lower := w.host_lower,
        port_ne := w.port_ne, port_digits := w.port_digits,
        port_nondefault := w.port_nondefault,
        path_head := hhead2, path_ok := hok2,
        search_ok := fun q hq => nomatch hq }
    have horig : originChars ⟨hts, host, port, path, none, hsh⟩ =
        originChars ⟨hts, host, port, path.dropLast, none, none⟩ := rfl
    rw [hN, horig]
    exact normalizeUrl_fixed_point hts host port path.dropLast w2
      (fun hc => hq_last hc.2)
  · rw [if_neg hcond] at hN
    have w2 : URLWf ⟨hts, host, port, path, none, none⟩ :=
      { host_ne := w.host_ne, host_ok := w.host_ok, host_lower := w.host_lower,
        port_ne := w.port_ne, port_digits := w.port_digits,
        port_nondefault := w.port_nondefault,
        path_head := w.path_head, path_ok := w.path_ok,
        search_ok := fun q hq => nomatch hq }
    have horig : originChars ⟨hts, host, port, path, none, hsh⟩ =
        originChars ⟨hts, host, port, path, none, none⟩ := rfl
    rw [hN, horig]
    exact normalizeUrl_fixed_point hts host port path w2 hcond

/-- Claim C9 amended: for every parsable query-free URL whose path is not
the root path and does not end in consecutive slashes, the normalized URL
has no trailing slash; with a query string present (see the counterexample)
the path keeps its trailing slash, and only the root path keeps its slash
among query-free URLs. -/
theorem normalizeUrl_no_trailing_slash_no_query (u : String) (p : URLRecord)
    (hp : parseUrlChars u.data = some p) (hq : p.search = none)
    (hroot : p.pathname ≠ ['/']) (hds : ¬ ['/', '/'] <:+ p.pathname) :
    ∃ s, normalizeUrl u none = some s ∧ s.data.getLast? ≠ some '/' := by
  have w := parseUrlChars_wf _ _ hp
  have hN := normalizeRecordChars_no_query p w hq
  have h1 : resolveUrl u none = some p := by simp only [resolveUrl, hp]
  have hres : normalizeUrl u none = some ((normalizeRecordChars p).asString) := by
    simp only [normalizeUrl, h1]
  refine ⟨(normalizeRecordChars p).asString, hres, ?_⟩
  rw [data_asString, hN]
  by_cases hsl : p.pathname.getLast? = some '/'
  · rw [if_pos ⟨hroot, hsl⟩]
    have hdecomp : p.pathname.dropLast ++ ['/'] = p.pathname :=
      List.dropLast_append_getLast? '/' (by rw [hsl]; rfl)
    have hq_ne : p.pathname.dropLast ≠ [] := by
      intro hnil
      apply hroot
      rw [← hdecomp, hnil, List.nil_append]
    have hq_last : p.pathname.dropLast.getLast? ≠ some '/' := by
      intro hlast
      apply hds
      have hdecomp2 : p.pathname.dropLast.dropLast ++ ['/'] = p.pathname.dropLast :=
        List.dropLast_append_getLast? '/' (by rw [hlast]; rfl)
      refine ⟨p.pathname.dropLast.dropLast, ?_⟩
      rw [show (['/', '/'] : List Char) = ['/'] ++ ['/'] from rfl, ← List.append_assoc,
        hdecomp2, hdecomp]
    rw [List.getLast?_append_of_ne_nil _ hq_ne]
    exact hq_last
  · rw [if_neg (fun hc => hsl hc.2)]
    rw [List.getLast?_append_of_ne_nil _ w.path_ne]
    exact hsl

/-- Witness for the amended claim C8 at a concrete URL. -/
theorem normalizeUrl_idempotent_witness :
    ∃ s, normalizeUrl "https://a.com/foo/" none = some s ∧ normalizeUrl s none = some s :=
  normalizeUrl_idempotent_no_double_slash "https://a.com/foo/"
    ⟨true, "a.com".data, none, "/foo/".data, none, none⟩ (by decide) rfl (by decide)

/-- Witness for the amended claim C9 at a concrete URL. -/
theorem normalizeUrl_no_trailing_slash_witness :
    ∃ s, normalizeUrl "https://a.com/bar/" none = some s ∧ s.data.getLast? ≠ some '/' :=
  normalizeUrl_no_trailing_slash_no_query "https://a.com/bar/"
    ⟨true, "a.com".data, none, "/bar/".data, none, none⟩ (by decide) rfl (by decide) (by decide)

/-! The scan orchestrator (`Detector.scan` in `engine.ts`).  The browser is
abstracted as a per-viewport `PageSession` oracle carrying everything the
in-page evaluations return; the screenshot capture (an external payload no
claim inspects) and the float-valued priority scoring (`Math.sqrt`) are
abstracted, the latter as an opaque reordering function. -/

/-- A viewport configuration, from `types.ts`. -/
structure Viewport where
  width : Nat
  height : Nat
  label : String
  isMobile : Bool := false
deriving Repr

/-- `DEFAULT_VIEWPORTS` of `engine.ts`. -/
def DEFAULT_VIEWPORTS : List Viewport :=
  [⟨1440, 900, "Desktop", false⟩, ⟨768, 1024, "Tablet", false⟩, ⟨390, 844, "Mobile", true⟩]

/-- `MAX_BUGS_PER_CATEGORY` of `engine.ts`. -/
def MAX_BUGS_PER_CATEGORY : Nat := 10

/-- `DetectorConfig` of `types.ts` (an unset viewport list is `[]`). -/
structure DetectorConfig where
  checkAccessibility : Bool
  checkLayout : Bool
  checkInteraction : Bool
  checkTypo : Bool := false
  checkVisual : Bool := false
  checkCrossPage : Bool := false
  viewports : List Viewport := []
  screenshotQuality : Option Nat := none
  maxBugsPerCategory : Option Nat := none
  customWhitelist : List String := []

/-- What one isolated rendering context observes for one viewport: whether
navigation failed, the outputs of each check plugin, the filtered console
errors, metrics, the anchors the page exposes (read only by the dead
`extractLinks`), and the result of the optional in-page AI enrichment
(`none` when that evaluation fails and is caught). -/
structure PageSession where
  navigationFails : Bool := false
  currentUrl : String
  loadTime : Nat := 0
  domSize : Nat := 0
  layoutBugs : List Bug := []
  interactionBugs : List Bug := []
  dynamicBugs : List Bug := []
  formBugs : List Bug := []
  typoBugs : List Bug := []
  visualBugs : List Bug := []
  a11yBugs : List Bug := []
  navBugs : List Bug := []
  consoleErrors : List String := []
  pageLinks : List String := []
  enriched : Option (List Bug) := none

/-- First-occurrence deduplication of strings (insertion-ordered set). -/
def dedupStringsGo : List String → List String → List String
  | _, [] => []
  | seen, s :: rest =>
    if s ∈ seen then dedupStringsGo seen rest
    else s :: dedupStringsGo (seen ++ [s]) rest

/-- Insertion-ordered string set, as a JS `Set`/`Map` key view. -/
def dedupStrings (l : List String) : List String := dedupStringsGo [] l

/-- The codes grouped by `Detector.groupAccessibilityBugs`. -/
def isGroupedA11yCode (c : String) : Bool :=
  c == "A11Y_REGION" || c == "A11Y_LANDMARK-ONE-MAIN"

/-- `Detector.groupAccessibilityBugs`: collapse each grouped code into one
summary finding carrying an occurrence count; other findings pass through
after the summaries. -/
def groupAccessibilityBugs (bugs : List Bug) : List Bug :=
  let standalone := bugs.filter (fun b => !(isGroupedA11yCode b.code))
  let keys := dedupStrings ((bugs.filter (fun b => isGroupedA11yCode b.code)).map Bug.code)
  let summaryBugs := keys.filterMap (fun c =>
    match bugs.filter (fun b => b.code == c && isGroupedA11yCode b.code) with
    | [] => none
    | firstBug :: rest => some { firstBug with
        message := firstBug.message ++ " (" ++ toString (rest.length + 1) ++ " occurrences)" })
  summaryBugs ++ standalone

/-- The synthetic finding built for one console error (severity was
downgraded to major in the source; `crypto.randomUUID` is modelled as an
opaque constant id, which no modelled operation reads). -/
def consoleErrorBug (label currentUrl err : String) : Bug :=
  { id := "", code := "CONSOLE_ERROR", severity := .major,
    message := "[" ++ label ++ "] Console Error: " ++ (err.data.take 80).asString ++ "...",
    locationDescription := some ("Console Log (" ++ label ++ ")"),
    pageUrl := some currentUrl }

/-- Replace the first finding with a matching id, as the enrichment merge
(`findIndex` + in-place update) does. -/
def replaceFirstById : List Bug → Bug → List Bug
  | [], _ => []
  | b :: bs, eb => if b.id = eb.id then eb :: bs else b :: replaceFirstById bs eb

/-- Merge the AI-enrichment output back into the accumulated findings; a
failed evaluation (`none`) leaves them unchanged. -/
def applyEnrichment (allBugs : List Bug) : Option (List Bug) → List Bug
  | none => allBugs
  | some ebs => ebs.foldl replaceFirstById allBugs

/-- The mutable state of the viewport loop in `Detector.scan`.
`discoveredLinks` mirrors the `let discoveredLinks: string[] = []`
declaration: the loop below, like the source, never assigns to it. -/
structure ScanLoopState where
  allBugs : List Bug
  totalLoadTime : Nat
  domSize : Nat
  discoveredLinks : List String

/-- One iteration of the viewport loop of `Detector.scan`, in source order:
layout, interaction (+ dynamic, + forms on the first viewport), typo,
visual, accessibility and navigation on the first viewport, then up to five
console-error findings, then the enrichment merge. -/
def scanViewportStep (config : DetectorConfig) (maxBugs : Nat) (isFirst : Bool)
    (vp : Viewport) (sess : PageSession) (st : ScanLoopState) : ScanLoopState :=
  let vpBugs : List Bug :=
    (if config.checkLayout then
        limitAndTagBugs sess.layoutBugs vp.label sess.currentUrl maxBugs
      else []) ++
    (if config.checkInteraction then
        limitAndTagBugs sess.interactionBugs vp.label sess.currentUrl maxBugs ++
        limitAndTagBugs sess.dynamicBugs vp.label sess.currentUrl maxBugs ++
        (if isFirst then limitAndTagBugs sess.formBugs vp.label sess.currentUrl maxBugs
          else [])
      else []) ++
    (if config.checkTypo then
        limitAndTagBugs sess.typoBugs vp.label sess.currentUrl maxBugs
      else []) ++
    (if config.checkVisual then
        limitAndTagBugs sess.visualBugs vp.label sess.currentUrl maxBugs
      else []) ++
    (if config.checkAccessibility && isFirst then
        (groupAccessibilityBugs sess.a11yBugs).take (maxBugs * 2) ++
        limitAndTagBugs sess.navBugs vp.label sess.currentUrl maxBugs
      else []) ++
    (sess.consoleErrors.take 5).map (consoleErrorBug vp.label sess.currentUrl)
  { allBugs := applyEnrichment (st.allBugs ++ vpBugs) sess.enriched,
    totalLoadTime := st.totalLoadTime + sess.loadTime,
    domSize := if isFirst then sess.domSize else st.domSize,
    discoveredLinks := st.discoveredLinks }

/-- `if (!b.pageUrl) b.pageUrl = url` (empty strings are falsy). -/
def defaultPageUrl (url : String) (b : Bug) : Bug :=
  match b.pageUrl with
  | none => { b with pageUrl := some url }
  | some s => if s = "" then { b with pageUrl := some url } else b

/-- `ScanResult` of `types.ts` (the fields the model carries). -/
structure ScanResultM where
  url : String
  score : ℤ
  bugs : List Bug
  loadTime : Nat
  domSize : Nat
  links : List String
deriving DecidableEq, Repr

/-- `Detector.scan`: run every configured viewport (default triple when the
config list is empty), aggregate and tag findings, deduplicate, score, and
assemble the result.  `sessions i` is the browser oracle for viewport `i`;
`prioSort` abstracts `addPriorityScores` plus the priority sort (real-valued
`Math.sqrt`); a navigation failure in any viewport makes the scan throw
(`none`). -/
def scanModel (config : DetectorConfig) (sessions : Nat → PageSession)
    (prioSort : List Bug → List Bug) (url : String) : Option ScanResultM :=
  let viewports := if config.viewports.isEmpty then DEFAULT_VIEWPORTS else config.viewports
  let maxBugs := config.maxBugsPerCategory.getD MAX_BUGS_PER_CATEGORY
  if viewports.enum.any (fun p => (sessions p.1).navigationFails) then none
  else
    let final := viewports.enum.foldl
      (fun st p => scanViewportStep config maxBugs (p.1 == 0) p.2 (sessions p.1) st)
      ⟨[], 0, 0, []⟩
    let uniqueBugs := deduplicateBugs ((final.allBugs).map (defaultPageUrl url))
    some { url := url,
           score := calculateScore uniqueBugs,
           bugs := prioSort uniqueBugs,
           loadTime := final.totalLoadTime / viewports.length,
           domSize := final.domSize,
           links := final.discoveredLinks }

/-- `Detector.extractLinks` — defined by the source as a private method but
never invoked anywhere in `Detector.scan` (mirrored here, equally
unreferenced by `scanModel`): it would collect the page's same-origin
links, normalized, deduplicated, and minus the current page. -/
def extractLinks (sess : PageSession) : List String :=
  match parseUrlChars sess.currentUrl.data with
  | none => []
  | some pcur =>
    let origin := (originChars pcur).asString
    let normalizedSet := dedupStrings (sess.pageLinks.filterMap (fun link =>
      match normalizeUrl link (some origin) with
      | none => none
      | some n =>
        if origin.data.isPrefixOf link.data || link.data.head? == some '/'
        then some n else none))
    let cur := (normalizeUrl sess.currentUrl (some origin)).getD ""
    normalizedSet.filter (fun n => !(n == cur))

theorem scanViewportStep_links (config : DetectorConfig) (maxBugs : Nat) (isFirst : Bool)
    (vp : Viewport) (sess : PageSession) (st : ScanLoopState) :
    (scanViewportStep config maxBugs isFirst vp sess st).discoveredLinks =
      st.discoveredLinks := rfl

theorem scanLoop_links (config : DetectorConfig) (maxBugs : Nat) (sessions : Nat → PageSession)
    (l : List (Nat × Viewport)) (st : ScanLoopState) :
    (l.foldl (fun st p => scanViewportStep config maxBugs (p.1 == 0) p.2 (sessions p.1) st)
      st).discoveredLinks = st.discoveredLinks := by
  induction l generalizing st with
  | nil => rfl
  | cons p rest ih =>
    rw [List.foldl_cons, ih, scanViewportStep_links]

/-- Claim C1 divergence: every successful `Detector.scan` returns an empty
`links` field — `discoveredLinks` is initialized to `[]`, never assigned
anywhere in the function, and `extractLinks` is never called — so the
Frontier Manager never receives the outbound same-origin links the page
exposes. -/
theorem scan_links_always_empty (config : DetectorConfig) (sessions : Nat → PageSession)
    (prioSort : List Bug → List Bug) (url : String) (r : ScanResultM)
    (h : scanModel config sessions prioSort url = some r) : r.links = [] := by
  unfold scanModel at h
  by_cases hnav : ((if config.viewports.isEmpty then DEFAULT_VIEWPORTS
      else config.viewports).enum.any (fun p => (sessions p.1).navigationFails)) = true
  · rw [if_pos hnav] at h
    cases h
  · rw [if_neg hnav] at h
    simp only [Option.some.injEq] at h
    subst h
    simp only
    exact scanLoop_links _ _ _ _ _

/-- A concrete page session exposing an outbound same-origin anchor. -/
def sampleSession : PageSession :=
  { currentUrl := "https://a.com/", pageLinks := ["https://a.com/about"] }

/-- A configuration with every check disabled. -/
def sampleConfig : DetectorConfig :=
  { checkAccessibility := false, checkLayout := false, checkInteraction := false }

/-- Witness for claim C1: a concrete successful scan of a page that exposes
a same-origin link still returns `links = []`, although the never-invoked
`extractLinks` would have collected that link. -/
theorem scan_links_always_empty_witness :
    scanModel sampleConfig (fun _ => sampleSession) id "https://a.com/" =
      some ⟨"https://a.com/", 100, [], 0, 0, []⟩ ∧
    (⟨"https://a.com/", 100, [], 0, 0, []⟩ : ScanResultM).links = [] ∧
    extractLinks sampleSession = ["https://a.com/about"] :=
  ⟨by decide,
    scan_links_always_empty sampleConfig (fun _ => sampleSession) id "https://a.com/"
      ⟨"https://a.com/", 100, [], 0, 0, []⟩ (by decide),
    by decide⟩

/-! The crawl frontier manager (`Crawler.crawl` in `crawler.ts`).  The
per-URL scan (`new Detector().scan(...)`, a browser-driving call) is
abstracted as an oracle `scanO : String → Option (List String)` returning
the scanned page's `links` on success and `none` on a scan failure; the
sitemap fetch is the URL list the network returned; the abort signal is a
per-iteration predicate.  Everything else follows the source statement by
statement. -/

/-- The crawl's mutable state: the visited set, the BFS queue of
{url, depth} entries, the URLs of the successfully scanned results, and the
`allDiscoveredUrls` set. -/
structure CrawlState where
  visited : List String
  queue : List (String × Nat)
  scannedUrls : List String
  discovered : List String

/-- JS `Set.add`: insertion-ordered, no duplicates. -/
def addSet (s : List String) (x : String) : List String :=
  if x ∈ s then s else s ++ [x]

/-- A `Partial<CrawlOptions>` value passed as the `options` argument. -/
structure CrawlOptionsOverride where
  maxDepth : Option Nat := none
  maxPages : Option Nat := none
  respectRobotsTxt : Option Bool := none
  includeSitemap : Option Bool := none
  allowedPathPatterns : Option (List (List Char → Bool)) := none
  excludedPathPatterns : Option (List (List Char → Bool)) := none
  requestDelayMs : Option Nat := none
  concurrency : Option Nat := none

/-- `{ ...DEFAULT_CRAWL_OPTIONS, maxPages, maxDepth, ...options }`: the
spread lets a `maxPages`/`maxDepth` key inside `options` override the
positional arguments. -/
def mergeCrawlOptions (maxPages maxDepth : Nat) (o : CrawlOptionsOverride) : CrawlOptions :=
  { maxDepth := o.maxDepth.getD maxDepth,
    maxPages := o.maxPages.getD maxPages,
    respectRobotsTxt := o.respectRobotsTxt.getD DEFAULT_CRAWL_OPTIONS.respectRobotsTxt,
    includeSitemap := o.includeSitemap.getD DEFAULT_CRAWL_OPTIONS.includeSitemap,
    allowedPathPatterns := o.allowedPathPatterns,
    excludedPathPatterns := o.excludedPathPatterns,
    requestDelayMs := o.requestDelayMs.getD DEFAULT_CRAWL_OPTIONS.requestDelayMs,
    concurrency := o.concurrency.getD DEFAULT_CRAWL_OPTIONS.concurrency }

/-- The inner batch-collection loop of `Crawler.crawl`: shift items while
the batch is under the concurrency limit and the page budget leaves room,
dropping items beyond the depth limit. -/
def takeBatch (conc maxPages maxDepth resLen : Nat) :
    List (String × Nat) → List (String × Nat) →
      List (String × Nat) × List (String × Nat)
  | acc, [] => (acc, [])
  | acc, item :: rest =>
    if acc.length < conc ∧ resLen + acc.length < maxPages then
      if item.2 ≤ maxDepth then takeBatch conc maxPages maxDepth resLen (acc ++ [item]) rest
      else takeBatch conc maxPages maxDepth resLen acc rest
    else (acc, item :: rest)

/-- Queueing one discovered link (lines 165–176 of the source): add every
normalizable link to `allDiscoveredUrls`, and enqueue it at `depth + 1`
when it is unvisited and `shouldCrawl` accepts it. -/
def linkStep (baseOrigin : String) (opts : CrawlOptions) (depth1 : Nat)
    (st : CrawlState) (link : String) : CrawlState :=
  match normalizeUrl link (some baseOrigin) with
  | none => st
  | some nl =>
    let st' := { st with discovered := addSet st.discovered nl }
    if nl ∉ st'.visited ∧ shouldCrawl nl baseOrigin opts then
      { st' with visited := st'.visited ++ [nl], queue := st'.queue ++ [(nl, depth1)] }
    else st'

/-- Queue all links discovered by one successful scan. -/
def processLinks (baseOrigin : String) (opts : CrawlOptions) (depth1 : Nat)
    (links : List String) (st : CrawlState) : CrawlState :=
  links.foldl (linkStep baseOrigin opts depth1) st

/-- Process one batch's scan outcomes in order: a failed scan is skipped, a
successful one appends its result and (below the depth limit) queues its
links. -/
def processBatch (scanO : String → Option (List String)) (baseOrigin : String)
    (opts : CrawlOptions) : List (String × Nat) → CrawlState → CrawlState
  | [], st => st
  | (u, d) :: rest, st =>
    match scanO u with
    | none => processBatch scanO baseOrigin opts rest st
    | some links =>
      let st1 := { st with scannedUrls := st.scannedUrls ++ [u] }
      let st2 := if d < opts.maxDepth then processLinks baseOrigin opts (d + 1) links st1
        else st1
      processBatch scanO baseOrigin opts rest st2

/-- The main crawl loop, one iteration per fuel unit: check the `while`
guard, then the abort signal, collect a batch, and process it. -/
def crawlLoop (scanO : String → Option (List String)) (baseOrigin : String)
    (opts : CrawlOptions) (cancelled : Nat → Bool) : Nat → CrawlState → CrawlState
  | 0, st => st
  | fuel + 1, st =>
    if st.queue ≠ [] ∧ st.scannedUrls.length < opts.maxPages then
      if cancelled fuel then st
      else
        let conc := if opts.concurrency = 0 then 2 else opts.concurrency
        let pr := takeBatch conc opts.maxPages opts.maxDepth st.scannedUrls.length [] st.queue
        if pr.1 = [] then st
        else crawlLoop scanO baseOrigin opts cancelled fuel
          (processBatch scanO baseOrigin opts pr.1 { st with queue := pr.2 })
    else st

/-- Seeding one sitemap URL (lines 90–97 of the source). -/
def sitemapStep (baseOrigin : String) (opts : CrawlOptions)
    (st : CrawlState) (u : String) : CrawlState :=
  match normalizeUrl u (some baseOrigin) with
  | none => st
  | some n =>
    if n ∉ st.visited ∧ shouldCrawl n baseOrigin opts then
      { st with discovered := addSet st.discovered n,
                queue := st.queue ++ [(n, 1)],
                visited := st.visited ++ [n] }
    else st

/-- The fields of `CrawlResult` the claims concern. -/
structure CrawlResultM where
  rootUrl : String
  pagesScanned : Nat
  totalPagesFound : Nat
deriving DecidableEq, Repr

/-- `Crawler.crawl`: normalize the start URL (`none` models the thrown
`Invalid start URL`), seed the frontier (optionally from the sitemap), run
the batch loop, and report `results.length` and `allDiscoveredUrls.size`. -/
def crawlModel (scanO : String → Option (List String)) (sitemapUrls : List String)
    (cancelled : Nat → Bool) (startUrl : String) (maxPages maxDepth : Nat)
    (options : CrawlOptionsOverride) (fuel : Nat) : Option CrawlResultM :=
  let opts := mergeCrawlOptions maxPages maxDepth options
  match normalizeUrl startUrl none with
  | none => none
  | some normalizedStart =>
    match parseUrlChars normalizedStart.data with
    | none => none
    | some pstart =>
      let baseOrigin := (originChars pstart).asString
      let st0 : CrawlState :=
        ⟨[normalizedStart], [(normalizedStart, 0)], [], [normalizedStart]⟩
      let st1 := if opts.includeSitemap then
          sitemapUrls.foldl (sitemapStep baseOrigin opts) st0
        else st0
      let stF := crawlLoop scanO baseOrigin opts cancelled fuel st1
      some { rootUrl := normalizedStart,
             pagesScanned := stF.scannedUrls.length,
             totalPagesFound := stF.discovered.length }

/-! Invariants of the crawl state.  `InvB mp batch st` holds between loop
steps, with `batch` the dequeued items not yet processed: every scanned URL
is recorded at most once and is discovered, pending URLs (batch and queue)
are pairwise distinct, visited, and unscanned, and the page budget has room
for the whole pending batch. -/

def InvB (maxPages : Nat) (batch : List (String × Nat)) (st : CrawlState) : Prop :=
  st.scannedUrls.Nodup ∧
  (∀ u ∈ st.scannedUrls, u ∈ st.visited) ∧
  (∀ u ∈ st.visited, u ∈ st.discovered) ∧
  st.discovered.Nodup ∧
  (batch.map Prod.fst ++ st.queue.map Prod.fst).Nodup ∧
  (∀ q ∈ batch, q.1 ∈ st.visited) ∧
  (∀ q ∈ st.queue, q.1 ∈ st.visited) ∧
  (∀ q ∈ batch, q.1 ∉ st.scannedUrls) ∧
  (∀ q ∈ st.queue, q.1 ∉ st.scannedUrls) ∧
  st.scannedUrls.length + batch.length ≤ maxPages

theorem mem_addSet_self (s : List String) (x : String) : x ∈ addSet s x := by
  unfold addSet
  by_cases h : x ∈ s
  · simp [h]
  · simp [h]

theorem mem_addSet_of_mem (s : List String) (x y : String) (h : y ∈ s) : y ∈ addSet s x := by
  unfold addSet
  by_cases hx : x ∈ s
  · simpa [hx]
  · simp [hx, h]

theorem addSet_nodup (s : List String) (x : String) (h : s.Nodup) : (addSet s x).Nodup := by
  unfold addSet
  by_cases hx : x ∈ s
  · simpa [hx]
  · rw [if_neg hx, List.nodup_append]
    exact ⟨h, List.nodup_singleton x, by simpa [List.disjoint_singleton] using hx⟩

theorem linkStep_invB (maxPages : Nat) (batch : List (String × Nat)) (baseOrigin : String)
    (opts : CrawlOptions) (depth1 : Nat) (st : CrawlState) (link : String)
    (h : InvB maxPages batch st) :
    InvB maxPages batch (linkStep baseOrigin opts depth1 st link) := by
  obtain ⟨h1, h2, h3, h4, h5, h6, h7, h8, h9, h10⟩ := h
  rcases hn : normalizeUrl link (some baseOrigin) with _ | nl
  · simp only [linkStep, hn]
    exact ⟨h1, h2, h3, h4, h5, h6, h7, h8, h9, h10⟩
  · simp only [linkStep, hn]
    by_cases hcond : nl ∉ (st.visited : List String) ∧ shouldCrawl nl baseOrigin opts = true
    · rw [if_pos hcond]
      refine ⟨h1, ?_, ?_, addSet_nodup _ _ h4, ?_, ?_, ?_, h8, ?_, ?_⟩
      · intro u hu
        exact List.mem_append_left _ (h2 u hu)
      · intro u hu
        rcases List.mem_append.mp hu with hu | hu
        · exact mem_addSet_of_mem _ _ _ (h3 u hu)
        · simp only [List.mem_singleton] at hu
          subst hu
          exact mem_addSet_self _ _
      · simp only [List.map_append, List.map_cons, List.map_nil, ← List.append_assoc]
        rw [List.nodup_append]
        refine ⟨h5, by simp, ?_⟩
        intro x hx
        rcases List.mem_append.mp hx with hx | hx
        · rcases List.mem_map.mp hx with ⟨q, hq, rfl⟩
          simp only [List.mem_singleton]
          intro hexq
          exact hcond.1 (hexq ▸ h6 q hq)
        · rcases List.mem_map.mp hx with ⟨q, hq, rfl⟩
          simp only [List.mem_singleton]
          intro hexq
          exact hcond.1 (hexq ▸ h7 q hq)
      · intro q hq
        exact List.mem_append_left _ (h6 q hq)
      · intro q hq
        rcases List.mem_append.mp hq with hq | hq
        · exact List.mem_append_left _ (h7 q hq)
        · simp only [List.mem_singleton] at hq
          subst hq
          exact List.mem_append_right _ (by simp)
      · intro q hq
        rcases List.mem_append.mp hq with hq | hq
        · exact h9 q hq
        · simp only [List.mem_singleton] at hq
          subst hq
          intro hmem
          exact hcond.1 (h2 _ hmem)
      · exact h10
    · rw [if_neg hcond]
      refine ⟨h1, h2, ?_, addSet_nodup _ _ h4, h5, h6, h7, h8, h9, h10⟩
      intro u hu
      exact mem_addSet_of_mem _ _ _ (h3 u hu)

theorem processLinks_invB (maxPages : Nat) (batch : List (String × Nat)) (baseOrigin : String)
    (opts : CrawlOptions) (depth1 : Nat) (links : List String) (st : CrawlState)
    (h : InvB maxPages batch st) :
    InvB maxPages batch (processLinks baseOrigin opts depth1 links st) := by
  induction links generalizing st with
  | nil => simpa [processLinks] using h
  | cons link rest ih =>
    rw [processLinks, List.foldl_cons]
    exact ih _ (linkStep_invB maxPages batch baseOrigin opts depth1 st link h)

theorem InvB_weaken (maxPages : Nat) (q : String × Nat) (rest : List (String × Nat))
    (st : CrawlState) (h : InvB maxPages (q :: rest) st) : InvB maxPages rest st := by
  obtain ⟨h1, h2, h3, h4, h5, h6, h7, h8, h9, h10⟩ := h
  refine ⟨h1, h2, h3, h4, ?_, ?_, h7, ?_, h9, ?_⟩
  · simp only [List.map_cons, List.cons_append] at h5
    exact h5.of_cons
  · intro p hp
    exact h6 p (List.mem_cons_of_mem q hp)
  · intro p hp
    exact h8 p (List.mem_cons_of_mem q hp)
  · simp only [List.length_cons] at h10
    omega

theorem InvB_scan_step (maxPages : Nat) (u : String) (d : Nat)
    (rest : List (String × Nat)) (st : CrawlState)
    (h : InvB maxPages ((u, d) :: rest) st) :
    InvB maxPages rest { st with scannedUrls := st.scannedUrls ++ [u] } := by
  obtain ⟨h1, h2, h3, h4, h5, h6, h7, h8, h9, h10⟩ := h
  have hu_vis : u ∈ st.visited := h6 (u, d) (by simp)
  have hu_notscanned : u ∉ st.scannedUrls := h8 (u, d) (by simp)
  simp only [List.map_cons, List.cons_append] at h5
  have hu_notpending : u ∉ List.map Prod.fst rest ++ List.map Prod.fst st.queue :=
    h5.not_mem
  refine ⟨?_, ?_, h3, h4, h5.of_cons, ?_, h7, ?_, ?_, ?_⟩
  · rw [List.nodup_append]
    exact ⟨h1, List.nodup_singleton u, by simpa [List.disjoint_singleton] using hu_notscanned⟩
  · intro x hx
    rcases List.mem_append.mp hx with hx | hx
    · exact h2 x hx
    · simp only [List.mem_singleton] at hx
      subst hx
      exact hu_vis
  · intro p hp
    exact h6 p (List.mem_cons_of_mem _ hp)
  · intro p hp
    intro hmem
    rcases List.mem_append.mp hmem with hmem | hmem
    · exact h8 p (List.mem_cons_of_mem _ hp) hmem
    · simp only [List.mem_singleton] at hmem
      apply hu_notpending
      apply List.mem_append_left
      exact List.mem_map.mpr ⟨p, hp, hmem⟩
  · intro p hp
    intro hmem
    rcases List.mem_append.mp hmem with hmem | hmem
    · exact h9 p hp hmem
    · simp only [List.mem_singleton] at hmem
      apply hu_notpending
      apply List.mem_append_right
      exact List.mem_map.mpr ⟨p, hp, hmem⟩
  · have hlen : (st.scannedUrls ++ [u]).length = st.scannedUrls.length + 1 := by simp
    simp only [List.length_cons] at h10
    simp only [hlen]
    omega

theorem processBatch_invB (maxPages : Nat) (scanO : String → Option (List String))
    (baseOrigin : String) (opts : CrawlOptions) (batch : List (String × Nat))
    (st : CrawlState) (h : InvB maxPages batch st) :
    InvB maxPages [] (processBatch scanO baseOrigin opts batch st) := by
  induction batch generalizing st with
  | nil => simpa [processBatch] using h
  | cons item rest ih =>
    obtain ⟨u, d⟩ := item
    rcases hs : scanO u with _ | links
    · simp only [processBatch, hs]
      exact ih st (InvB_weaken maxPages (u, d) rest st h)
    · simp only [processBatch, hs]
      have h1 := InvB_scan_step maxPages u d rest st h
      by_cases hd : d < opts.maxDepth
      · rw [if_pos hd]
        exact ih _ (processLinks_invB maxPages rest baseOrigin opts (d + 1) links _ h1)
      · rw [if_neg hd]
        exact ih _ h1

theorem takeBatch_sublist (conc maxPages maxDepth resLen : Nat)
    (q acc : List (String × Nat)) :
    List.Sublist
      ((takeBatch conc maxPages maxDepth resLen acc q).1.map Prod.fst ++
        (takeBatch conc maxPages maxDepth resLen acc q).2.map Prod.fst)
      (acc.map Prod.fst ++ q.map Prod.fst) := by
  induction q generalizing acc with
  | nil =>
    simp only [takeBatch, List.map_nil, List.append_nil]
    exact List.Sublist.refl _
  | cons item rest ih =>
    simp only [takeBatch]
    by_cases hg : acc.length < conc ∧ resLen + acc.length < maxPages
    · rw [if_pos hg]
      by_cases hd : item.2 ≤ maxDepth
      · rw [if_pos hd]
        have h1 := ih (acc ++ [item])
        simp only [List.map_append, List.map_cons, List.map_nil] at h1 ⊢
        rw [List.append_assoc] at h1
        simpa using h1
      · rw [if_neg hd]
        have h1 := ih acc
        refine h1.trans ?_
        simp only [List.map_cons]
        exact (List.sublist_cons_self item.1 _).append_left _
    · rw [if_neg hg]

theorem takeBatch_length (conc maxPages maxDepth resLen : Nat)
    (q acc : List (String × Nat)) (h : resLen + acc.length ≤ maxPages) :
    resLen + (takeBatch conc maxPages maxDepth resLen acc q).1.length ≤ maxPages := by
  induction q generalizing acc with
  | nil => simpa [takeBatch] using h
  | cons item rest ih =>
    simp only [takeBatch]
    by_cases hg : acc.length < conc ∧ resLen + acc.length < maxPages
    · rw [if_pos hg]
      by_cases hd : item.2 ≤ maxDepth
      · rw [if_pos hd]
        exact ih (acc ++ [item])
          (by simp only [List.length_append, List.length_cons, List.length_nil]; omega)
      · rw [if_neg hd]
        exact ih acc h
    · rw [if_neg hg]
      exact h

theorem crawlLoop_inv (scanO : String → Option (List String)) (baseOrigin : String)
    (opts : CrawlOptions) (cancelled : Nat → Bool) (fuel : Nat) (st : CrawlState)
    (h : InvB opts.maxPages [] st) :
    InvB opts.maxPages [] (crawlLoop scanO baseOrigin opts cancelled fuel st) := by
  induction fuel generalizing st with
  | zero => simpa [crawlLoop] using h
  | succ n ih =>
    simp only [crawlLoop]
    by_cases hg : st.queue ≠ [] ∧ st.scannedUrls.length < opts.maxPages
    · rw [if_pos hg]
      by_cases hcan : cancelled n = true
      · rw [if_pos hcan]
        exact h
      · rw [if_neg hcan]
        set conc := if opts.concurrency = 0 then 2 else opts.concurrency with hconc
        set pr := takeBatch conc opts.maxPages opts.maxDepth st.scannedUrls.length []
          st.queue with hpr
        by_cases hb : pr.1 = []
        · rw [if_pos hb]
          exact h
        · rw [if_neg hb]
          apply ih
          apply processBatch_invB
          obtain ⟨h1, h2, h3, h4, h5, h6, h7, h8, h9, h10⟩ := h
          simp only [List.map_nil, List.nil_append] at h5
          have hsubl := takeBatch_sublist conc opts.maxPages opts.maxDepth
            st.scannedUrls.length st.queue []
          rw [← hpr] at hsubl
          simp only [List.map_nil, List.nil_append] at hsubl
          have hsub : ∀ x ∈ pr.1.map Prod.fst ++ pr.2.map Prod.fst,
              x ∈ st.queue.map Prod.fst := fun x hx => hsubl.subset hx
          have hvis : ∀ x ∈ st.queue.map Prod.fst, x ∈ st.visited := by
            intro x hx
            rcases List.mem_map.mp hx with ⟨p, hp, rfl⟩
            exact h7 p hp
          have hnsc : ∀ x ∈ st.queue.map Prod.fst, x ∉ st.scannedUrls := by
            intro x hx
            rcases List.mem_map.mp hx with ⟨p, hp, rfl⟩
            exact h9 p hp
          refine ⟨h1, h2, h3, h4, ?_, ?_, ?_, ?_, ?_, ?_⟩
          · exact hsubl.nodup h5
          · intro q hq
            exact hvis _ (hsub _ (List.mem_append_left _ (List.mem_map_of_mem _ hq)))
          · intro q hq
            exact hvis _ (hsub _ (List.mem_append_right _ (List.mem_map_of_mem _ hq)))
          · intro q hq
            exact hnsc _ (hsub _ (List.mem_append_left _ (List.mem_map_of_mem _ hq)))
          · intro q hq
            exact hnsc _ (hsub _ (List.mem_append_right _ (List.mem_map_of_mem _ hq)))
          · have := takeBatch_length conc opts.maxPages opts.maxDepth
              st.scannedUrls.length st.queue [] (by simpa using le_of_lt hg.2)
            rw [← hpr] at this
            simpa using this
    · rw [if_neg hg]
      exact h

theorem sitemapStep_inv (maxPages : Nat) (baseOrigin : String) (opts : CrawlOptions)
    (st : CrawlState) (u : String) (h : InvB maxPages [] st) :
    InvB maxPages [] (sitemapStep baseOrigin opts st u) := by
  obtain ⟨h1, h2, h3, h4, h5, h6, h7, h8, h9, h10⟩ := h
  rcases hn : normalizeUrl u (some baseOrigin) with _ | n
  · simp only [sitemapStep, hn]
    exact ⟨h1, h2, h3, h4, h5, h6, h7, h8, h9, h10⟩
  · simp only [sitemapStep, hn]
    by_cases hcond : n ∉ (st.visited : List String) ∧ shouldCrawl n baseOrigin opts = true
    · rw [if_pos hcond]
      simp only [List.map_nil, List.nil_append] at h5
      refine ⟨h1, ?_, ?_, addSet_nodup _ _ h4, ?_, by simp, ?_, by simp, ?_, h10⟩
      · intro x hx
        exact List.mem_append_left _ (h2 x hx)
      · intro x hx
        rcases List.mem_append.mp hx with hx | hx
        · exact mem_addSet_of_mem _ _ _ (h3 x hx)
        · simp only [List.mem_singleton] at hx
          subst hx
          exact mem_addSet_self _ _
      · simp only [List.map_append, List.map_cons, List.map_nil, List.nil_append]
        rw [List.nodup_append]
        refine ⟨h5, by simp, ?_⟩
        intro x hx
        simp only [List.mem_singleton]
        intro hxe
        rcases List.mem_map.mp hx with ⟨p, hp, rfl⟩
        exact hcond.1 (hxe ▸ h7 p hp)
      · intro q hq
        rcases List.mem_append.mp hq with hq | hq
        · exact List.mem_append_left _ (h7 q hq)
        · simp only [List.mem_singleton] at hq
          subst hq
          exact List.mem_append_right _ (by simp)
      · intro q hq
        rcases List.mem_append.mp hq with hq | hq
        · exact h9 q hq
        · simp only [List.mem_singleton] at hq
          subst hq
          intro hmem
          exact hcond.1 (h2 _ hmem)
    · rw [if_neg hcond]
      exact ⟨h1, h2, h3, h4, h5, h6, h7, h8, h9, h10⟩

theorem sitemapFold_inv (maxPages : Nat) (baseOrigin : String) (opts : CrawlOptions)
    (urls : List String) (st : CrawlState) (h : InvB maxPages [] st) :
    InvB maxPages [] (urls.foldl (sitemapStep baseOrigin opts) st) := by
  induction urls generalizing st with
  | nil => simpa using h
  | cons u rest ih =>
    rw [List.foldl_cons]
    exact ih _ (sitemapStep_inv maxPages baseOrigin opts st u h)

theorem nodup_subset_length_le (l l' : List String) (hn : l.Nodup)
    (hs : ∀ x ∈ l, x ∈ l') : l.length ≤ l'.length := by
  have h1 : l.toFinset.card = l.length := List.toFinset_card_of_nodup hn
  have h2 : l.toFinset ⊆ l'.toFinset := by
    intro x hx
    rw [List.mem_toFinset] at hx ⊢
    exact hs x hx
  calc l.length = l.toFinset.card := h1.symm
    _ ≤ l'.toFinset.card := Finset.card_le_card h2
    _ ≤ l'.length := List.toFinset_card_le l'

/-- Claim C4: every returned `CrawlResult` satisfies
`pagesScanned <= maxPages` (the crawl's effective page budget, i.e. the
`maxPages` argument unless `options.maxPages` overrides it through the
spread) and `totalPagesFound >= pagesScanned`, for every scan oracle,
sitemap, cancellation pattern and fuel. -/
theorem crawl_pages_within_budget (scanO : String → Option (List String))
    (sitemapUrls : List String) (cancelled : Nat → Bool) (startUrl : String)
    (maxPages maxDepth : Nat) (options : CrawlOptionsOverride) (fuel : Nat)
    (res : CrawlResultM)
    (h : crawlModel scanO sitemapUrls cancelled startUrl maxPages maxDepth options fuel =
      some res) :
    res.pagesScanned ≤ (mergeCrawlOptions maxPages maxDepth options).maxPages ∧
      res.pagesScanned ≤ res.totalPagesFound := by
  rcases hn : normalizeUrl startUrl none with _ | nstart
  · simp only [crawlModel, hn] at h
    cases h
  · simp only [crawlModel, hn] at h
    rcases hp : parseUrlChars nstart.data with _ | pstart
    · rw [hp] at h
      cases h
    · rw [hp] at h
      simp only [Option.some.injEq] at h
      subst h
      simp only
      have inv0 : InvB (mergeCrawlOptions maxPages maxDepth options).maxPages []
          ⟨[nstart], [(nstart, 0)], [], [nstart]⟩ :=
        ⟨by simp, by simp, by simp, by simp, by simp, by simp, by simp, by simp,
          by simp, by simp⟩
      have inv1 : InvB (mergeCrawlOptions maxPages maxDepth options).maxPages []
          (if (mergeCrawlOptions maxPages maxDepth options).includeSitemap then
            sitemapUrls.foldl
              (sitemapStep ((originChars pstart).asString)
                (mergeCrawlOptions maxPages maxDepth options))
              ⟨[nstart], [(nstart, 0)], [], [nstart]⟩
          else ⟨[nstart], [(nstart, 0)], [], [nstart]⟩) := by
        by_cases hsm : (mergeCrawlOptions maxPages maxDepth options).includeSitemap = true
        · rw [if_pos hsm]
          exact sitemapFold_inv _ _ _ sitemapUrls _ inv0
        · rw [if_neg hsm]
          exact inv0
      have invF := crawlLoop_inv scanO ((originChars pstart).asString)
        (mergeCrawlOptions maxPages maxDepth options) cancelled fuel _ inv1
      obtain ⟨f1, f2, f3, f4, f5, f6, f7, f8, f9, f10⟩ := invF
      constructor
      · simpa using f10
      · exact nodup_subset_length_le _ _ f1 (fun x hx => f3 x (f2 x hx))

/-- Witness for claim C4 at a concrete crawl: one page, budget two. -/
theorem crawl_pages_within_budget_witness :
    crawlModel (fun _ => some []) [] (fun _ => false) "https://a.com/" 2 3 {} 5 =
      some ⟨"https://a.com/", 1, 1⟩ ∧
    (⟨"https://a.com/", 1, 1⟩ : CrawlResultM).pagesScanned ≤
      (mergeCrawlOptions 2 3 {}).maxPages ∧
    (⟨"https://a.com/", 1, 1⟩ : CrawlResultM).pagesScanned ≤
      (⟨"https://a.com/", 1, 1⟩ : CrawlResultM).totalPagesFound := by
  refine ⟨by decide, ?_, ?_⟩
  · exact (crawl_pages_within_budget (fun _ => some []) [] (fun _ => false) "https://a.com/"
      2 3 {} 5 ⟨"https://a.com/", 1, 1⟩ (by decide)).1
  · exact (crawl_pages_within_budget (fun _ => some []) [] (fun _ => false) "https://a.com/"
      2 3 {} 5 ⟨"https://a.com/", 1, 1⟩ (by decide)).2
